import Mathlib

/-!
# LiteCal — Event Canonicalization & Calendar-Interchange Codec: a verification development

Shallow embedding of the codec subsystem of the LiteCal app:

* `safeBtoa` / `fallbackBtoa`  — `src/app/(tabs)/index.tsx`, lines 47–77
* `capitalizeWords`            — `src/app/(tabs)/index.tsx`, lines 493–513
* `generateICSFile` and its helpers (`formatICSValue`, `formatDateForICS`,
  the end-instant resolution)  — `src/app/(tabs)/index.tsx`, lines 531–625
* `getWeekdayName`/`formatDate`, `formatLocation`
                               — `src/components/EventPreview.tsx` (first version),
                                 lines 130–170 and 187–201
* `capitalizeTitle`            — `src/unnamed/part_002`, lines 98–118
* `capitalizeLocation`         — `src/unnamed/part_001`, lines 210–235
* the event-update orchestration of `handleSendMessage`
                               — `src/app/(tabs)/index.tsx`, lines 436–464

JavaScript strings are modelled as lists of UTF-16 code units (`List Nat`,
each < 2^16).  The platform primitives `btoa`/`atob` (WHATWG forgiving
base64) are modelled after their standard behaviour; `btoa` succeeds exactly
on strings whose code units are all < 256.  JS `toUpperCase`/`toLowerCase`
are modelled on their ASCII fragment (the only fragment exercised by the
word lists and comparisons in the source).  JS `Date` objects are modelled
as `Option LocalInstant`: `none` stands for an Invalid Date (NaN
components); components that parse but lie outside the canonical ranges
(which JS would normalise by rollover) are also collapsed to `none` — every
theorem that depends on a date carries in-range hypotheses, so this
collapse is never load-bearing.  The model has no DST, matching the
source's deliberate "naive local wall-clock" treatment.  The
timestamp used for the `UID` line is passed explicitly.
-/

/-- Code units of a Lean string literal, used to write JS string constants. -/
def ofString (s : String) : List Nat := s.data.map Char.toNat

/-- ASCII fragment of JS `String.prototype.toLowerCase` on one code unit. -/
def jsToLower (c : Nat) : Nat := if 65 ≤ c ∧ c ≤ 90 then c + 32 else c

/-- ASCII fragment of JS `String.prototype.toUpperCase` on one code unit. -/
def jsToUpper (c : Nat) : Nat := if 97 ≤ c ∧ c ≤ 122 then c - 32 else c

/-- `toLowerCase` over a whole string. -/
def lowerStr (s : List Nat) : List Nat := s.map jsToLower

/-- `toUpperCase` over a whole string. -/
def upperStr (s : List Nat) : List Nat := s.map jsToUpper

/-- JS `str.split(sep)` for a one-character separator: always returns at
least one (possibly empty) piece, with empty pieces between adjacent
separators, exactly as in JavaScript. -/
def splitOnChar (sep : Nat) : List Nat → List (List Nat)
  | [] => [[]]
  | c :: rest =>
    match splitOnChar sep rest with
    | [] => [[]]
    | w :: ws => if c = sep then [] :: w :: ws else (c :: w) :: ws

/-- JS `parts.join(sep)`. -/
def joinSep (sep : List Nat) : List (List Nat) → List Nat
  | [] => []
  | [w] => w
  | w :: ws => w ++ sep ++ joinSep sep ws

/-- Whitespace recognised by the model of JS `String.prototype.trim`. -/
def isJsSpace (c : Nat) : Bool := c = 32 || c = 9 || c = 10 || c = 13

/-- Model of JS `String.prototype.trim`. -/
def trimJS (s : List Nat) : List Nat :=
  ((s.dropWhile isJsSpace).reverse.dropWhile isJsSpace).reverse

/-- JS truthiness of an optional string: `undefined` and `""` are falsy. -/
def truthy : Option (List Nat) → Bool
  | some (_ :: _) => true
  | _ => false

/-- Model of JS `parseInt(s, 10)` restricted to unsigned inputs: skip
leading whitespace, then read the longest run of decimal digits; no digits
means `NaN`, modelled as `none`.  (Sign prefixes are not modelled; no
theorem below feeds a signed string.) -/
def parseIntJS (s : List Nat) : Option Nat :=
  let digs := (s.dropWhile isJsSpace).takeWhile (fun c => 48 ≤ c && c ≤ 57)
  if digs = [] then none
  else some (digs.foldl (fun acc d => acc * 10 + (d - 48)) 0)

/-- Decimal digits of `n`, least significant first; the `fuel` argument is
only a structural-recursion bound (`fuel = n` always suffices). -/
def natDigitsRevAux : Nat → Nat → List Nat
  | 0, _ => []
  | fuel + 1, n => if n = 0 then [] else (48 + n % 10) :: natDigitsRevAux fuel (n / 10)

/-- Model of JS number-to-string conversion for a nonnegative integer. -/
def natToStr (n : Nat) : List Nat :=
  if n = 0 then [48] else (natDigitsRevAux n n).reverse

/-- JS `String(n).padStart(2, '0')`. -/
def pad2 (n : Nat) : List Nat :=
  if n < 10 then 48 :: natToStr n else natToStr n

/-! ## TextCodec: `safeBtoa`, its fallback, and the platform `atob`

`safeBtoa` (src/app/(tabs)/index.tsx, lines 47–77) first tries the platform
`btoa`; when that throws (code unit ≥ 256, or the primitive is absent), it
runs a hand-written base64 loop over `charCodeAt` values. -/

/-- The alphabet string `base64chars` of the source. -/
def base64chars : List Nat :=
  ofString "ABCDEFGHIJKLMNOPQRSTUVWXYZabcdefghijklmnopqrstuvwxyz0123456789+/"

/-- `base64chars[i]` (always in range in the source, since indices are
masked with `& 0x3f`). -/
def b64char (i : Nat) : Nat := base64chars.getD i 0

/-- The catch-branch `while` loop of `safeBtoa`, transcribed with its index
arithmetic exactly as JavaScript executes it.  The running index `i` starts
at 0; `a` is read under the loop guard `i < str.length` with an
unconditional post-increment, while `b` and `c` come from the ternaries
`i < str.length ? str.charCodeAt(i++) : 0` — the post-increment sits inside
the taken branch, so `i` grows only while `i < str.length` and therefore
never exceeds `str.length`.  The two `=` padding conditions
`i > str.length + 1` and `i > str.length` are transcribed verbatim (61 is
`=`).  `List.getD _ _ 0` models `charCodeAt` at the indices actually read,
all of which are in range, so the default is never hit.  The
shifts/ors/masks are the 32-bit JS operations `(a << 16) | (b << 8) | c`
and `(trio >> k) & 0x3f`; since `a, b, c < 2^16` all intermediate values
stay below `2^32`, so plain `Nat` bit operations have the same bit
patterns. -/
def fallbackLoop (s : List Nat) (i : Nat) : List Nat :=
  if _h : i < s.length then
    let a := s.getD i 0
    let i1 := i + 1
    let b := if i1 < s.length then s.getD i1 0 else 0
    let i2 := if i1 < s.length then i1 + 1 else i1
    let c := if i2 < s.length then s.getD i2 0 else 0
    let i3 := if i2 < s.length then i2 + 1 else i2
    let trio := ((a <<< 16) ||| (b <<< 8)) ||| c
    b64char ((trio >>> 18) &&& 63) ::
    b64char ((trio >>> 12) &&& 63) ::
    (if i3 > s.length + 1 then 61 else b64char ((trio >>> 6) &&& 63)) ::
    (if i3 > s.length then 61 else b64char (trio &&& 63)) ::
    fallbackLoop s i3
  else []
termination_by s.length - i
decreasing_by split_ifs <;> omega

/-- The full catch branch: the loop started at index 0. -/
def fallbackBtoa (s : List Nat) : List Nat := fallbackLoop s 0

/-- Closed form of the loop's actual behaviour, derived (not transcribed):
because `i` never exceeds `s.length`, the `=` conditions never fire, and
each started group of up to 3 code units yields 4 masked alphabet
characters, missing units entering as the literal `0` of the source's
ternaries.  Proved equal to `fallbackBtoa` (for every input) in
`fallbackBtoa_eq_groups` below; being structurally recursive it also
serves for concrete evaluation. -/
def fallbackGroups : List Nat → List Nat
  | [] => []
  | [a] =>
    let trio := ((a <<< 16) ||| (0 <<< 8)) ||| 0
    [b64char ((trio >>> 18) &&& 63), b64char ((trio >>> 12) &&& 63),
     b64char ((trio >>> 6) &&& 63), b64char (trio &&& 63)]
  | [a, b] =>
    let trio := ((a <<< 16) ||| (b <<< 8)) ||| 0
    [b64char ((trio >>> 18) &&& 63), b64char ((trio >>> 12) &&& 63),
     b64char ((trio >>> 6) &&& 63), b64char (trio &&& 63)]
  | a :: b :: c :: rest =>
    let trio := ((a <<< 16) ||| (b <<< 8)) ||| c
    [b64char ((trio >>> 18) &&& 63), b64char ((trio >>> 12) &&& 63),
     b64char ((trio >>> 6) &&& 63), b64char (trio &&& 63)] ++ fallbackGroups rest

/-- Modelled from the spec (§4.3): the standard base64 encoding of a byte
list — 3 input bytes become 4 alphabet characters, a 1- or 2-byte tail is
padded with `==` or `=`.  This is the refinement target the fallback branch
is compared against (claim C2), and the behaviour of the platform `btoa`
primitive on strings it accepts. -/
def base64encode : List Nat → List Nat
  | [] => []
  | [a] => [b64char (a / 4), b64char (a % 4 * 16), 61, 61]
  | [a, b] =>
    [b64char (a / 4), b64char (a % 4 * 16 + b / 16), b64char (b % 16 * 4), 61]
  | a :: b :: c :: rest =>
    [b64char (a / 4), b64char (a % 4 * 16 + b / 16), b64char (b % 16 * 4 + c / 64),
     b64char (c % 64)] ++ base64encode rest

/-- Model of `safeBtoa`: the platform `btoa` succeeds exactly when every
code unit is < 256 (otherwise it throws `InvalidCharacterError`), in which
case it returns the standard base64 of the corresponding bytes; the catch
branch runs the custom loop.  (When the primitive is absent altogether,
every call takes the catch branch, i.e. is `fallbackBtoa`.) -/
def safeBtoa (s : List Nat) : List Nat :=
  if s.all (fun c => c < 256) then base64encode s else fallbackBtoa s

/-- Modelled from the spec (§4.3): the inverse alphabet lookup of the
platform `atob` (WHATWG forgiving-base64). -/
def b64index (c : Nat) : Option Nat :=
  if 65 ≤ c ∧ c ≤ 90 then some (c - 65)
  else if 97 ≤ c ∧ c ≤ 122 then some (c - 97 + 26)
  else if 48 ≤ c ∧ c ≤ 57 then some (c - 48 + 52)
  else if c = 43 then some 62
  else if c = 47 then some 63
  else none

/-- Modelled from the spec (§4.3): the platform `atob` — forgiving-base64
decode; fails on characters outside the alphabet, on a length that is not a
multiple of 4, and on `=` anywhere but the tail; leftover bits of a padded
group are discarded. -/
def atob : List Nat → Option (List Nat)
  | [] => some []
  | c1 :: c2 :: c3 :: c4 :: rest =>
    match b64index c1, b64index c2 with
    | some i1, some i2 =>
      if c3 = 61 then
        if c4 = 61 ∧ rest = [] then some [i1 * 4 + i2 / 16] else none
      else
        match b64index c3 with
        | some i3 =>
          if c4 = 61 then
            if rest = [] then some [i1 * 4 + i2 / 16, i2 % 16 * 16 + i3 / 4] else none
          else
            match b64index c4 with
            | some i4 =>
              match atob rest with
              | some bs =>
                some ([i1 * 4 + i2 / 16, i2 % 16 * 16 + i3 / 4, i3 % 4 * 64 + i4] ++ bs)
              | none => none
            | none => none
        | none => none
    | _, _ => none
  | _ => none

/-! ## Title- and location-casing (DisplayFormatter) -/

/-- `word.charAt(0).toUpperCase() + word.slice(1).toLowerCase()` — on the
empty word both pieces are empty, as in JS. -/
def capitalizeWord : List Nat → List Nat
  | [] => []
  | c :: rest => jsToUpper c :: lowerStr rest

/-- The `minorWords` list shared by `capitalizeWords`
(src/app/(tabs)/index.tsx, line 497) and `capitalizeTitle`
(src/unnamed/part_002, line 102). -/
def minorWords : List (List Nat) :=
  [ofString "a", ofString "an", ofString "the", ofString "and", ofString "but",
   ofString "or", ofString "for", ofString "nor", ofString "on", ofString "at",
   ofString "to", ofString "from", ofString "by", ofString "in", ofString "of"]

/-- `capitalizeWords` of src/app/(tabs)/index.tsx, lines 493–513. -/
def capitalizeWords (text : List Nat) : List Nat :=
  if text = [] then []
  else
    let ws := splitOnChar 32 text
    joinSep [32] (ws.mapIdx (fun i w =>
      if i = 0 ∨ i = ws.length - 1 then capitalizeWord w
      else if lowerStr w ∈ minorWords then lowerStr w
      else capitalizeWord w))

/-- `capitalizeTitle` of src/unnamed/part_002, lines 98–118 (same body as
`capitalizeWords`, duplicated at a second call site). -/
def capitalizeTitle (title : List Nat) : List Nat :=
  if title = [] then []
  else
    let ws := splitOnChar 32 title
    joinSep [32] (ws.mapIdx (fun i w =>
      if i = 0 ∨ i = ws.length - 1 then capitalizeWord w
      else if lowerStr w ∈ minorWords then lowerStr w
      else capitalizeWord w))

/-- The reduced `lowercaseWords` list used by both location formatters
(src/components/EventPreview.tsx, line 194, and src/unnamed/part_001,
line 222): unlike `minorWords`, it lacks `but`, `nor` and `from`. -/
def locMinorWords : List (List Nat) :=
  [ofString "and", ofString "or", ofString "the", ofString "a", ofString "an",
   ofString "of", ofString "to", ofString "in", ofString "for", ofString "on",
   ofString "by", ofString "at"]

/-- `formatLocation` of src/components/EventPreview.tsx, lines 187–201.
A word is left lowercase when its lowercasing is a listed minor word and
the word differs (by value) from `part.trim().split(' ')[0]`; every other
word — including the last one — is capitalized. -/
def formatLocation (loc : List Nat) : List Nat :=
  if loc = [] then []
  else
    joinSep (ofString ", ") ((splitOnChar 44 loc).map (fun part =>
      let ws := splitOnChar 32 (trimJS part)
      joinSep [32] (ws.map (fun w =>
        if lowerStr w ∈ locMinorWords ∧ w ≠ ws.headD [] then lowerStr w
        else capitalizeWord w))))

/-- `capitalizeLocation` of src/unnamed/part_001, lines 210–235: index 0 is
always capitalized, listed minor words are lowercased elsewhere, and a word
of at most 3 characters that is already all-uppercase is kept as-is. -/
def capitalizeLocation (loc : List Nat) : List Nat :=
  if loc = [] then []
  else
    joinSep (ofString ", ") ((splitOnChar 44 loc).map (fun part =>
      let ws := splitOnChar 32 (trimJS part)
      joinSep [32] (ws.mapIdx (fun i w =>
        if i = 0 then capitalizeWord w
        else if lowerStr w ∈ locMinorWords then lowerStr w
        else if upperStr w = w ∧ w.length ≤ 3 then upperStr w
        else capitalizeWord w))))

/-- Modelled from the spec (§4.2) and claim C6: the title-casing rule as
worded — every word is capitalized, except that a minor word is lowercased
unless it is the first or last word, in which case it too is capitalized. -/
def specWordCase (edge : Bool) (w : List Nat) : List Nat :=
  if lowerStr w ∈ minorWords then
    (if edge then capitalizeWord w else lowerStr w)
  else capitalizeWord w

/-- Modelled from the spec: the claimed casing rule applied to a word list. -/
def specTitleCase (ws : List (List Nat)) : List (List Nat) :=
  ws.mapIdx (fun i w => specWordCase (i = 0 || i = ws.length - 1) w)

/-- Modelled from the spec and claim C7: the claimed location rule — the
*same* minor-word rule as for titles, applied per comma-delimited component
of the location. -/
def specLocationCase (loc : List Nat) : List Nat :=
  joinSep (ofString ", ") ((splitOnChar 44 loc).map (fun part =>
    joinSep [32] (specTitleCase (splitOnChar 32 (trimJS part)))))

/-- The word rule actually implemented by `formatLocation`, at the level of
a component's word list (used to state the amended claim C7). -/
def locWordRuleA (ws : List (List Nat)) : List (List Nat) :=
  ws.map (fun w =>
    if lowerStr w ∈ locMinorWords ∧ w ≠ ws.headD [] then lowerStr w
    else capitalizeWord w)

/-- The word rule actually implemented by `capitalizeLocation`, at the level
of a component's word list (used to state the amended claim C7). -/
def locWordRuleB (ws : List (List Nat)) : List (List Nat) :=
  ws.mapIdx (fun i w =>
    if i = 0 then capitalizeWord w
    else if lowerStr w ∈ locMinorWords then lowerStr w
    else if upperStr w = w ∧ w.length ≤ 3 then upperStr w
    else capitalizeWord w)

/-! ## Event data and the JS `Date` model -/

/-- The `EventData` record of the source (`event_title`, `start_date`,
`start_time`, `end_date?`, `end_time?`, `location?`, `description?`); every
field is optional at runtime since the record comes from an untrusted API
response, so each is an `Option`. -/
structure EventData where
  event_title : Option (List Nat) := none
  start_date : Option (List Nat) := none
  start_time : Option (List Nat) := none
  end_date : Option (List Nat) := none
  end_time : Option (List Nat) := none
  location : Option (List Nat) := none
  description : Option (List Nat) := none
deriving DecidableEq

/-- A naive local wall-clock instant, the state a JS `Date` holds after
`setFullYear(y, m - 1, d)` and `setHours(h, min, 0, 0)` with in-range
components (seconds and milliseconds are zero). -/
structure LocalInstant where
  year : Nat
  month : Nat
  day : Nat
  hour : Nat
  minute : Nat
deriving DecidableEq

/-- Gregorian leap-year test. -/
def isLeap (y : Nat) : Bool := (y % 4 = 0 && y % 100 != 0) || y % 400 = 0

/-- Length of a month in the Gregorian calendar (0 for an out-of-range
month index; such indices never pass `mkJSDate`). -/
def daysInMonth (y m : Nat) : Nat :=
  match m with
  | 1 => 31 | 2 => if isLeap y then 29 else 28 | 3 => 31 | 4 => 30
  | 5 => 31 | 6 => 30 | 7 => 31 | 8 => 31 | 9 => 30 | 10 => 31
  | 11 => 30 | 12 => 31 | _ => 0

/-- Days of year `y` that precede the first day of month `m`. -/
def daysBeforeMonth (y m : Nat) : Nat :=
  let ℓ := if isLeap y then 1 else 0
  match m with
  | 1 => 0 | 2 => 31 | 3 => 59 + ℓ | 4 => 90 + ℓ | 5 => 120 + ℓ | 6 => 151 + ℓ
  | 7 => 181 + ℓ | 8 => 212 + ℓ | 9 => 243 + ℓ | 10 => 273 + ℓ | 11 => 304 + ℓ
  | 12 => 334 + ℓ | _ => 0

/-- Proleptic-Gregorian day count: days elapsed from 0001-01-01 to the
given date (so `daysFromCivil 1 1 1 = 0`).  Meaningful for `year ≥ 1`. -/
def daysFromCivil (y m d : Nat) : Nat :=
  365 * (y - 1) + (y - 1) / 4 - (y - 1) / 100 + (y - 1) / 400 +
    daysBeforeMonth y m + (d - 1)

/-- Minutes elapsed from 0001-01-01T00:00 to the given instant; the
linearisation used to compare instants. -/
def instantMinutes (i : LocalInstant) : Nat :=
  daysFromCivil i.year i.month i.day * 1440 + i.hour * 60 + i.minute

/-- An instant with in-range components (and a positive year, so that the
day count is meaningful). -/
def validInstant (i : LocalInstant) : Prop :=
  1 ≤ i.year ∧ 1 ≤ i.month ∧ i.month ≤ 12 ∧ 1 ≤ i.day ∧
    i.day ≤ daysInMonth i.year i.month ∧ i.hour ≤ 23 ∧ i.minute ≤ 59

instance (i : LocalInstant) : Decidable (validInstant i) := by
  unfold validInstant; infer_instance

/-- Model of building a JS `Date` from parsed components via
`setFullYear(y, m - 1, d); setHours(h, min, 0, 0)`.  A `none` component is
a `NaN` (JS: Invalid Date); out-of-range numeric components, which JS would
normalise by rollover, are also collapsed to `none` — all theorems below
restrict to in-range components, so the collapse is never load-bearing. -/
def mkJSDate (oy om od oh omin : Option Nat) : Option LocalInstant :=
  match oy, om, od, oh, omin with
  | some y, some m, some d, some h, some min =>
    if 1 ≤ m ∧ m ≤ 12 ∧ 1 ≤ d ∧ d ≤ daysInMonth y m ∧ h ≤ 23 ∧ min ≤ 59 then
      some ⟨y, m, d, h, min⟩
    else none
  | _, _, _, _, _ => none

/-- Model of `new Date(date.getTime() + 60 * 60 * 1000)` on a valid local
instant (no DST in the model): add one hour, rolling over midnight, month
ends and year ends. -/
def addOneHour (i : LocalInstant) : LocalInstant :=
  if i.hour + 1 ≤ 23 then { i with hour := i.hour + 1 }
  else if i.day + 1 ≤ daysInMonth i.year i.month then
    { i with hour := 0, day := i.day + 1 }
  else if i.month + 1 ≤ 12 then
    { i with hour := 0, day := 1, month := i.month + 1 }
  else
    { year := i.year + 1, month := 1, day := 1, hour := 0, minute := i.minute }

/-- `parts[i]` of a `split`-and-`parseInt` pipeline: a missing index is JS
`undefined`, whose arithmetic is `NaN` (`none`). -/
def partAt (parts : List (Option Nat)) (i : Nat) : Option Nat :=
  parts.getD i none

/-- `s.split('-').map(n => parseInt(n, 10))`. -/
def dateParts (s : List Nat) : List (Option Nat) :=
  (splitOnChar 45 s).map parseIntJS

/-- `s.split(':').map(n => parseInt(n, 10))`. -/
def timeParts (s : List Nat) : List (Option Nat) :=
  (splitOnChar 58 s).map parseIntJS

/-- The start `Date` built by `generateICSFile` (lines 540–546) from the
`start_date`/`start_time` strings. -/
def startInstant (sd st : List Nat) : Option LocalInstant :=
  mkJSDate (partAt (dateParts sd) 0) (partAt (dateParts sd) 1) (partAt (dateParts sd) 2)
    (partAt (timeParts st) 0) (partAt (timeParts st) 1)

/-- The end-`Date` resolution of `generateICSFile` (lines 548–565), also
duplicated verbatim in `handleAddToCalendar` (EventPreview.tsx, lines
89–106): both end fields truthy → use them; only `end_time` truthy → reuse
the start-date parts with the end time; otherwise one hour after start. -/
def resolveEnd (e : EventData) (sd st : List Nat) : Option LocalInstant :=
  if truthy e.end_date && truthy e.end_time then
    mkJSDate (partAt (dateParts (e.end_date.getD [])) 0)
      (partAt (dateParts (e.end_date.getD [])) 1)
      (partAt (dateParts (e.end_date.getD [])) 2)
      (partAt (timeParts (e.end_time.getD [])) 0)
      (partAt (timeParts (e.end_time.getD [])) 1)
  else if truthy e.end_time then
    mkJSDate (partAt (dateParts sd) 0) (partAt (dateParts sd) 1)
      (partAt (dateParts sd) 2)
      (partAt (timeParts (e.end_time.getD [])) 0)
      (partAt (timeParts (e.end_time.getD [])) 1)
  else (startInstant sd st).map addOneHour

/-! ## CalendarDocumentEncoder: `generateICSFile` -/

/-- `formatDateForICS` (lines 571–581): `YYYYMMDDTHHMMSSZ` with 2-digit
padding on everything but the year; on an Invalid Date every `getFullYear`
/ `getMonth` / … returns `NaN`, so each component renders as `"NaN"`. -/
def formatDateForICS : Option LocalInstant → List Nat
  | some i =>
    natToStr i.year ++ pad2 i.month ++ pad2 i.day ++ [84] ++
      pad2 i.hour ++ pad2 i.minute ++ ofString "00" ++ [90]
  | none => ofString "NaNNaNNaNTNaNNaNNaNZ"

/-- `formatICSValue` (lines 587–591): sentinel absence values give `''`,
otherwise newlines then commas are escaped. -/
def formatICSValue : Option (List Nat) → List Nat
  | none => []
  | some v =>
    if v = [] ∨ v = ofString "None" ∨ v = ofString "Not specified" then []
    else (v.flatMap (fun c => if c = 10 then [92, 110] else [c])).flatMap
      (fun c => if c = 44 then [92, 44] else [c])

/-- The line array built by `generateICSFile` (lines 598–614) after
`.filter(Boolean)`; `ts` is the `new Date().getTime()` timestamp used for
the `UID`.  Note the source stamps `DTSTAMP` with the *start* instant. -/
def icsDocLines (ts : Nat) (e : EventData) (sd st : List Nat) : List (List Nat) :=
  let sf := formatDateForICS (startInstant sd st)
  let ef := formatDateForICS (resolveEnd e sd st)
  let summary :=
    if formatICSValue e.event_title = [] then ofString "Calendar Event"
    else formatICSValue e.event_title
  let location := formatICSValue e.location
  let description := formatICSValue e.description
  ([ofString "BEGIN:VCALENDAR", ofString "VERSION:2.0",
    ofString "PRODID:-//LiteCal//EN", ofString "CALSCALE:GREGORIAN",
    ofString "METHOD:PUBLISH", ofString "BEGIN:VEVENT",
    ofString "UID:event-" ++ natToStr ts ++ ofString "@litecal.app",
    ofString "DTSTAMP:" ++ sf,
    ofString "DTSTART:" ++ sf,
    ofString "DTEND:" ++ ef,
    ofString "SUMMARY:" ++ summary,
    (if location = [] then [] else ofString "LOCATION:" ++ location),
    (if description = [] then [] else ofString "DESCRIPTION:" ++ description),
    ofString "END:VEVENT", ofString "END:VCALENDAR"]).filter
      (fun l => !l.isEmpty)

/-- The hard-coded document of the catch branch (line 623). -/
def fallbackDoc : List Nat :=
  ofString "BEGIN:VCALENDAR\r\nVERSION:2.0\r\nBEGIN:VEVENT\r\nSUMMARY:Calendar Event\r\nEND:VEVENT\r\nEND:VCALENDAR"

/-- The document text `generateICSFile` encodes.  Inside the `try` block
the only statements that can throw are `eventData.start_date.split` /
`eventData.start_time.split` when the field is `undefined`; every other
failure (unparseable components) flows through as `NaN` without throwing.
So the catch branch is taken exactly when a start field is absent. -/
def icsDocText (ts : Nat) (e : EventData) : List Nat :=
  match e.start_date, e.start_time with
  | some sd, some st => joinSep (ofString "\r\n") (icsDocLines ts e sd st)
  | _, _ => fallbackDoc

/-- `generateICSFile` (lines 531–625): build the document text (or the
fallback document) and base64-encode it with `safeBtoa`. -/
def generateICSFile (ts : Nat) (e : EventData) : List Nat :=
  safeBtoa (icsDocText ts e)

/-! ## DisplayFormatter: weekday and date (EventPreview.tsx, lines 130–170) -/

/-- The `dayNames` table of `getWeekdayName`, indexed by Zeller's `h`. -/
def dayNames : List (List Nat) :=
  [ofString "Saturday", ofString "Sunday", ofString "Monday", ofString "Tuesday",
   ofString "Wednesday", ofString "Thursday", ofString "Friday"]

/-- The `monthNames` table of `formatDate`. -/
def monthNames : List (List Nat) :=
  [ofString "January", ofString "February", ofString "March", ofString "April",
   ofString "May", ofString "June", ofString "July", ofString "August",
   ofString "September", ofString "October", ofString "November", ofString "December"]

/-- Zeller's congruence value `h` as computed by `getWeekdayName`
(lines 145–159): January and February count as months 13/14 of the
previous year; the additions precede the one subtraction exactly as in the
source, so `Nat` subtraction never truncates. -/
def zellerH (year month day : Nat) : Nat :=
  let y := if month < 3 then year - 1 else year
  let m := if month < 3 then month + 12 else month
  (day + 13 * (m + 1) / 5 + y + y / 4 - y / 100 + y / 400) % 7

/-- `getWeekdayName` of EventPreview.tsx. -/
def getWeekdayName (year month day : Nat) : List Nat :=
  dayNames.getD (zellerH year month day) []

/-- `formatDate` of EventPreview.tsx (lines 130–170): parse `YYYY-MM-DD`,
then render `"<Weekday>, <MonthName> <Day>, <Year>"`.  The result is `none`
when a component fails to parse (the JS code would then render `NaN`
/`undefined` text; no statement below depends on that branch, and the
`catch` fallback of the source is unreachable since nothing throws). -/
def formatDate (s : List Nat) : Option (List Nat) :=
  match partAt (dateParts s) 0, partAt (dateParts s) 1, partAt (dateParts s) 2 with
  | some y, some m, some d =>
    some (getWeekdayName y m d ++ ofString ", " ++ monthNames.getD (m - 1) [] ++
      [32] ++ natToStr d ++ ofString ", " ++ natToStr y)
  | _, _, _ => none

/-- Weekday names in ISO order starting from Monday, for the reference
weekday computation. -/
def isoDayNames : List (List Nat) :=
  [ofString "Monday", ofString "Tuesday", ofString "Wednesday", ofString "Thursday",
   ofString "Friday", ofString "Saturday", ofString "Sunday"]

/-- Reference weekday: day-count modulo 7, anchored at the fact that
0001-01-01 of the proleptic Gregorian calendar is a Monday. -/
def gregorianWeekdayName (y m d : Nat) : List Nat :=
  isoDayNames.getD (daysFromCivil y m d % 7) []

/-! ## Orchestration: the event-update path of `handleSendMessage`
(src/app/(tabs)/index.tsx, lines 436–464) -/

/-- The field normalisation applied before regenerating the ICS payload:
`event_title` and `location` are run through `capitalizeWords` when truthy. -/
def normalizeEventFields (e : EventData) : EventData :=
  { e with
    event_title :=
      if truthy e.event_title then e.event_title.map capitalizeWords else e.event_title,
    location :=
      if truthy e.location then e.location.map capitalizeWords else e.location }

/-- The update `handleSendMessage` performs for a non-clarification event
response: capitalize the fields, then — whether or not the API supplied an
`ics_file` payload — regenerate the ICS from the event data (`if (!icsFile)
… generateICSFile … else … generateICSFile …`, lines 447–454) and surface
the pair. -/
def handleEventUpdate (ts : Nat) (apiIcs : Option (List Nat)) (e : EventData) :
    EventData × List Nat :=
  let e2 := normalizeEventFields e
  let ics := if truthy apiIcs then generateICSFile ts e2 else generateICSFile ts e2
  (e2, ics)

/-- Conditions on the words of one location component: nonempty words with
no whitespace and no comma. -/
def goodWords (ws : List (List Nat)) : Prop :=
  ws ≠ [] ∧ ∀ w ∈ ws, w ≠ [] ∧ ∀ c ∈ w, isJsSpace c = false ∧ c ≠ 44

instance (ws : List (List Nat)) : Decidable (goodWords ws) := by
  unfold goodWords
  infer_instance

/-! ## Codec lemmas -/

/-- Disjoint `or` is addition: `(a <<< k) ||| b = a * 2 ^ k + b` for `b < 2 ^ k`. -/
theorem lor_shiftLeft_add (k a b : Nat) (h : b < 2 ^ k) :
    (a <<< k) ||| b = a * 2 ^ k + b := by
  apply Nat.eq_of_testBit_eq
  intro i
  rw [Nat.testBit_lor, Nat.testBit_shiftLeft, Nat.mul_comm a (2 ^ k),
    Nat.testBit_mul_pow_two_add a h i]
  rcases Nat.lt_or_ge i k with hik | hik
  · simp [hik, Nat.not_le.mpr hik]
  · have hb : b.testBit i = false :=
      Nat.testBit_lt_two_pow (lt_of_lt_of_le h (Nat.pow_le_pow_right (by norm_num) hik))
    simp [hik, Nat.not_lt.mpr hik, hb]

/-- The trio register of the fallback loop, as plain arithmetic. -/
theorem trio_eq (a b c : Nat) (hb : b < 256) (hc : c < 256) :
    ((a <<< 16) ||| (b <<< 8)) ||| c = a * 65536 + b * 256 + c := by
  have hp16 : (2 : Nat) ^ 16 = 65536 := by norm_num
  have hp8 : (2 : Nat) ^ 8 = 256 := by norm_num
  have h8 : b <<< 8 = b * 256 := by rw [Nat.shiftLeft_eq, hp8]
  have h1 : (a <<< 16) ||| (b <<< 8) = a * 65536 + b * 256 := by
    rw [h8, lor_shiftLeft_add 16 a (b * 256) (by rw [hp16]; omega), hp16]
  have h2 : a * 65536 + b * 256 = (a * 256 + b) <<< 8 := by
    rw [Nat.shiftLeft_eq, hp8]; ring
  rw [h1]
  nth_rewrite 1 [h2]
  rw [lor_shiftLeft_add 8 (a * 256 + b) c (by rw [hp8]; omega), hp8]
  ring

/-- The six-bit extraction `(t >>> k) &&& 63` as plain arithmetic. -/
theorem extract6 (t k : Nat) : (t >>> k) &&& 63 = t / 2 ^ k % 64 := by
  have h63 : (63 : Nat) = 2 ^ 6 - 1 := by norm_num
  rw [Nat.shiftRight_eq_div_pow, h63, Nat.and_pow_two_sub_one_eq_mod]

/-- Alphabet lookup inverts the table on indices below 64. -/
theorem b64index_b64char (i : Nat) (h : i < 64) : b64index (b64char i) = some i := by
  have key : ∀ j : Fin 64, b64index (b64char j.val) = some j.val := by decide
  exact key ⟨i, h⟩

/-- No alphabet entry is the padding character `=`. -/
theorem b64char_ne_61 (i : Nat) (h : i < 64) : b64char i ≠ 61 := by
  have key : ∀ j : Fin 64, b64char j.val ≠ 61 := by decide
  exact key ⟨i, h⟩

/-- Every alphabet entry with index below 64 is a member of the table. -/
theorem b64char_mem (i : Nat) (h : i < 64) : b64char i ∈ base64chars := by
  have key : ∀ j : Fin 64, b64char j.val ∈ base64chars := by decide
  exact key ⟨i, h⟩

/-- Bit-mask with 63 is reduction modulo 64. -/
theorem and63_eq_mod (x : Nat) : x &&& 63 = x % 64 := by
  have h63 : (63 : Nat) = 2 ^ 6 - 1 := by norm_num
  rw [h63, Nat.and_pow_two_sub_one_eq_mod]

/-- Bit-masked indices are below 64. -/
theorem and63_lt (x : Nat) : x &&& 63 < 64 := by
  rw [and63_eq_mod]; omega

/-- Control-flow characterisation of the loop from any start index: since
the index only advances under `< length` guards it never exceeds the
length, both `=` conditions are dead, and the loop from index `i` processes
exactly the suffix `s.drop i` in groups.  No hypotheses: this is pure
control flow, independent of the code-unit values. -/
theorem fallbackLoop_eq_groups (s : List Nat) (i : Nat) :
    fallbackLoop s i = fallbackGroups (s.drop i) := by
  have key : ∀ n j, s.length - j ≤ n → fallbackLoop s j = fallbackGroups (s.drop j) := by
    intro n
    induction n with
    | zero =>
      intro j hle
      have hge : ¬ j < s.length := by omega
      rw [fallbackLoop.eq_def, dif_neg hge, List.drop_eq_nil_of_le (by omega)]
      rfl
    | succ n ih =>
      intro j hle
      by_cases hlt : j < s.length
      · rw [fallbackLoop.eq_def, dif_pos hlt]
        simp only []
        by_cases h1 : j + 1 < s.length
        · rw [if_pos h1, if_pos h1]
          by_cases h2 : j + 2 < s.length
          · rw [if_pos (show j + 1 + 1 < s.length by omega),
              if_pos (show j + 1 + 1 < s.length by omega),
              if_neg (show ¬ j + 1 + 1 + 1 > s.length + 1 by omega),
              if_neg (show ¬ j + 1 + 1 + 1 > s.length by omega),
              ih (j + 1 + 1 + 1) (by omega),
              List.drop_eq_getElem_cons hlt,
              List.drop_eq_getElem_cons (show j + 1 < s.length by omega),
              List.drop_eq_getElem_cons (show j + 1 + 1 < s.length by omega),
              List.getD_eq_getElem s 0 hlt,
              List.getD_eq_getElem s 0 (show j + 1 < s.length by omega),
              List.getD_eq_getElem s 0 (show j + 1 + 1 < s.length by omega)]
            rfl
          · rw [if_neg (show ¬ j + 1 + 1 < s.length by omega),
              if_neg (show ¬ j + 1 + 1 < s.length by omega),
              if_neg (show ¬ j + 1 + 1 > s.length + 1 by omega),
              if_neg (show ¬ j + 1 + 1 > s.length by omega),
              ih (j + 1 + 1) (by omega),
              List.drop_eq_getElem_cons hlt,
              List.drop_eq_getElem_cons (show j + 1 < s.length by omega),
              List.drop_eq_nil_of_le (show s.length ≤ j + 1 + 1 by omega),
              List.getD_eq_getElem s 0 hlt,
              List.getD_eq_getElem s 0 (show j + 1 < s.length by omega)]
            rfl
        · rw [if_neg h1, if_neg h1, if_neg h1, if_neg h1,
            if_neg (show ¬ j + 1 > s.length + 1 by omega),
            if_neg (show ¬ j + 1 > s.length by omega),
            ih (j + 1) (by omega),
            List.drop_eq_getElem_cons hlt,
            List.drop_eq_nil_of_le (show s.length ≤ j + 1 by omega),
            List.getD_eq_getElem s 0 hlt]
          rfl
      · rw [fallbackLoop.eq_def, dif_neg hlt, List.drop_eq_nil_of_le (by omega)]
        rfl
  exact key s.length i (by omega)

/-- The catch branch equals its grouped closed form on every input. -/
theorem fallbackBtoa_eq_groups (s : List Nat) : fallbackBtoa s = fallbackGroups s := by
  have h := fallbackLoop_eq_groups s 0
  simpa [fallbackBtoa] using h

/-- On byte inputs the grouped form is the standard base64 of the input
zero-padded to a multiple of 3 — zero bits, not `=`, fill the final
group. -/
theorem fallbackGroups_eq_encode_zeroPad :
    ∀ s : List Nat, (∀ c ∈ s, c < 256) →
      fallbackGroups s = base64encode (s ++ List.replicate ((3 - s.length % 3) % 3) 0)
  | [] => fun _ => rfl
  | [a] => fun h => by
    have ha : a < 256 := h a (by simp)
    show [b64char (((((a <<< 16) ||| (0 <<< 8)) ||| 0) >>> 18) &&& 63),
        b64char (((((a <<< 16) ||| (0 <<< 8)) ||| 0) >>> 12) &&& 63),
        b64char (((((a <<< 16) ||| (0 <<< 8)) ||| 0) >>> 6) &&& 63),
        b64char ((((a <<< 16) ||| (0 <<< 8)) ||| 0) &&& 63)] = base64encode [a, 0, 0]
    rw [trio_eq a 0 0 (by norm_num) (by norm_num), extract6, extract6, extract6,
      and63_eq_mod]
    show _ = [b64char (a / 4), b64char (a % 4 * 16 + 0 / 16),
        b64char (0 % 16 * 4 + 0 / 64), b64char (0 % 64)] ++ base64encode []
    have g1 : (a * 65536 + 0 * 256 + 0) / 2 ^ 18 % 64 = a / 4 := by omega
    have g2 : (a * 65536 + 0 * 256 + 0) / 2 ^ 12 % 64 = a % 4 * 16 + 0 / 16 := by omega
    have g3 : (a * 65536 + 0 * 256 + 0) / 2 ^ 6 % 64 = 0 % 16 * 4 + 0 / 64 := by omega
    have g4 : (a * 65536 + 0 * 256 + 0) % 64 = 0 % 64 := by omega
    rw [g1, g2, g3, g4]
    rfl
  | [a, b] => fun h => by
    have ha : a < 256 := h a (by simp)
    have hb : b < 256 := h b (by simp)
    show [b64char (((((a <<< 16) ||| (b <<< 8)) ||| 0) >>> 18) &&& 63),
        b64char (((((a <<< 16) ||| (b <<< 8)) ||| 0) >>> 12) &&& 63),
        b64char (((((a <<< 16) ||| (b <<< 8)) ||| 0) >>> 6) &&& 63),
        b64char ((((a <<< 16) ||| (b <<< 8)) ||| 0) &&& 63)] = base64encode [a, b, 0]
    rw [trio_eq a b 0 hb (by norm_num), extract6, extract6, extract6, and63_eq_mod]
    show _ = [b64char (a / 4), b64char (a % 4 * 16 + b / 16),
        b64char (b % 16 * 4 + 0 / 64), b64char (0 % 64)] ++ base64encode []
    have g1 : (a * 65536 + b * 256 + 0) / 2 ^ 18 % 64 = a / 4 := by omega
    have g2 : (a * 65536 + b * 256 + 0) / 2 ^ 12 % 64 = a % 4 * 16 + b / 16 := by omega
    have g3 : (a * 65536 + b * 256 + 0) / 2 ^ 6 % 64 = b % 16 * 4 + 0 / 64 := by omega
    have g4 : (a * 65536 + b * 256 + 0) % 64 = 0 % 64 := by omega
    rw [g1, g2, g3, g4]
    rfl
  | a :: b :: c :: rest => fun h => by
    have ha : a < 256 := h a (by simp)
    have hb : b < 256 := h b (by simp)
    have hc : c < 256 := h c (by simp)
    have ih := fallbackGroups_eq_encode_zeroPad rest (fun x hx => h x (by simp [hx]))
    have hk : (3 - (rest.length + 1 + 1 + 1) % 3) % 3 = (3 - rest.length % 3) % 3 := by
      omega
    show [b64char (((((a <<< 16) ||| (b <<< 8)) ||| c) >>> 18) &&& 63),
        b64char (((((a <<< 16) ||| (b <<< 8)) ||| c) >>> 12) &&& 63),
        b64char (((((a <<< 16) ||| (b <<< 8)) ||| c) >>> 6) &&& 63),
        b64char ((((a <<< 16) ||| (b <<< 8)) ||| c) &&& 63)] ++ fallbackGroups rest =
      base64encode (a :: b :: c ::
        (rest ++ List.replicate ((3 - (rest.length + 1 + 1 + 1) % 3) % 3) 0))
    rw [hk, trio_eq a b c hb hc, extract6, extract6, extract6, and63_eq_mod, ih]
    show _ = [b64char (a / 4), b64char (a % 4 * 16 + b / 16),
        b64char (b % 16 * 4 + c / 64), b64char (c % 64)] ++
      base64encode (rest ++ List.replicate ((3 - rest.length % 3) % 3) 0)
    have g1 : (a * 65536 + b * 256 + c) / 2 ^ 18 % 64 = a / 4 := by omega
    have g2 : (a * 65536 + b * 256 + c) / 2 ^ 12 % 64 = a % 4 * 16 + b / 16 := by omega
    have g3 : (a * 65536 + b * 256 + c) / 2 ^ 6 % 64 = b % 16 * 4 + c / 64 := by omega
    have g4 : (a * 65536 + b * 256 + c) % 64 = c % 64 := by omega
    rw [g1, g2, g3, g4]

/-- The real catch branch on byte inputs: standard base64 of the
zero-padded input. -/
theorem fallbackBtoa_eq_encode_zeroPad (s : List Nat) (h : ∀ c ∈ s, c < 256) :
    fallbackBtoa s = base64encode (s ++ List.replicate ((3 - s.length % 3) % 3) 0) := by
  rw [fallbackBtoa_eq_groups]
  exact fallbackGroups_eq_encode_zeroPad s h

/-- Output length of the standard encoder: four characters per started
3-byte group. -/
theorem base64encode_length :
    ∀ s : List Nat, (base64encode s).length = 4 * ((s.length + 2) / 3)
  | [] => rfl
  | [a] => by simp [base64encode]
  | [a, b] => by simp [base64encode]
  | a :: b :: c :: rest => by
    simp only [base64encode, List.length_append, base64encode_length rest,
      List.length_cons, List.length_nil]
    omega

/-- Number of `=` padding characters: two when the input length is 1 mod 3,
one when it is 2 mod 3, none when it is a multiple of 3. -/
theorem base64encode_count61 :
    ∀ s : List Nat, (∀ c ∈ s, c < 256) →
      (base64encode s).count 61 = (3 - s.length % 3) % 3
  | [] => fun _ => rfl
  | [a] => fun h => by
    have ha : a < 256 := h a (by simp)
    have h1 : b64char (a / 4) ≠ 61 := b64char_ne_61 (a / 4) (by omega)
    have h2 : b64char (a % 4 * 16) ≠ 61 := b64char_ne_61 (a % 4 * 16) (by omega)
    simp [base64encode, List.count_cons, h1, h2]
  | [a, b] => fun h => by
    have ha : a < 256 := h a (by simp)
    have hb : b < 256 := h b (by simp)
    have h1 : b64char (a / 4) ≠ 61 := b64char_ne_61 (a / 4) (by omega)
    have h2 : b64char (a % 4 * 16 + b / 16) ≠ 61 := b64char_ne_61 _ (by omega)
    have h3 : b64char (b % 16 * 4) ≠ 61 := b64char_ne_61 _ (by omega)
    simp [base64encode, List.count_cons, h1, h2, h3]
  | a :: b :: c :: rest => fun h => by
    have ha : a < 256 := h a (by simp)
    have hb : b < 256 := h b (by simp)
    have hc : c < 256 := h c (by simp)
    have ih := base64encode_count61 rest (fun x hx => h x (by simp [hx]))
    have h1 : b64char (a / 4) ≠ 61 := b64char_ne_61 (a / 4) (by omega)
    have h2 : b64char (a % 4 * 16 + b / 16) ≠ 61 := b64char_ne_61 _ (by omega)
    have h3 : b64char (b % 16 * 4 + c / 64) ≠ 61 := b64char_ne_61 _ (by omega)
    have h4 : b64char (c % 64) ≠ 61 := b64char_ne_61 _ (by omega)
    simp only [base64encode, List.count_append, List.count_cons, ih,
      List.length_cons]
    simp [h1, h2, h3, h4]
    omega

/-- The platform decoder inverts the standard encoder on byte inputs. -/
theorem atob_base64encode :
    ∀ s : List Nat, (∀ c ∈ s, c < 256) → atob (base64encode s) = some s
  | [] => fun _ => rfl
  | [a] => fun h => by
    have ha : a < 256 := h a (by simp)
    have e1 : b64index (b64char (a / 4)) = some (a / 4) :=
      b64index_b64char _ (by omega)
    have e2 : b64index (b64char (a % 4 * 16)) = some (a % 4 * 16) :=
      b64index_b64char _ (by omega)
    simp [base64encode, atob, e1, e2]
    omega
  | [a, b] => fun h => by
    have ha : a < 256 := h a (by simp)
    have hb : b < 256 := h b (by simp)
    have e1 : b64index (b64char (a / 4)) = some (a / 4) :=
      b64index_b64char _ (by omega)
    have e2 : b64index (b64char (a % 4 * 16 + b / 16)) = some (a % 4 * 16 + b / 16) :=
      b64index_b64char _ (by omega)
    have e3 : b64index (b64char (b % 16 * 4)) = some (b % 16 * 4) :=
      b64index_b64char _ (by omega)
    have n3 : b64char (b % 16 * 4) ≠ 61 := b64char_ne_61 _ (by omega)
    simp [base64encode, atob, e1, e2, e3, n3]
    omega
  | a :: b :: c :: rest => fun h => by
    have ha : a < 256 := h a (by simp)
    have hb : b < 256 := h b (by simp)
    have hc : c < 256 := h c (by simp)
    have ih := atob_base64encode rest (fun x hx => h x (by simp [hx]))
    have e1 : b64index (b64char (a / 4)) = some (a / 4) :=
      b64index_b64char _ (by omega)
    have e2 : b64index (b64char (a % 4 * 16 + b / 16)) = some (a % 4 * 16 + b / 16) :=
      b64index_b64char _ (by omega)
    have e3 : b64index (b64char (b % 16 * 4 + c / 64)) = some (b % 16 * 4 + c / 64) :=
      b64index_b64char _ (by omega)
    have e4 : b64index (b64char (c % 64)) = some (c % 64) :=
      b64index_b64char _ (by omega)
    have n3 : b64char (b % 16 * 4 + c / 64) ≠ 61 := b64char_ne_61 _ (by omega)
    have n4 : b64char (c % 64) ≠ 61 := b64char_ne_61 _ (by omega)
    simp [base64encode, atob, e1, e2, e3, e4, n3, n4, ih]
    omega

/-- Characters emitted by the standard encoder on bytes: alphabet or `=`. -/
theorem base64encode_alphabet :
    ∀ s : List Nat, (∀ c ∈ s, c < 256) →
      ∀ x ∈ base64encode s, x ∈ base64chars ∨ x = 61
  | [] => fun _ x hx => by simp [base64encode] at hx
  | [a] => fun h x hx => by
    have ha : a < 256 := h a (by simp)
    simp only [base64encode, List.mem_cons, List.not_mem_nil, or_false] at hx
    rcases hx with hh | hh | hh | hh
    · exact Or.inl (hh ▸ b64char_mem _ (by omega))
    · exact Or.inl (hh ▸ b64char_mem _ (by omega))
    · exact Or.inr hh
    · exact Or.inr hh
  | [a, b] => fun h x hx => by
    have ha : a < 256 := h a (by simp)
    have hb : b < 256 := h b (by simp)
    simp only [base64encode, List.mem_cons, List.not_mem_nil, or_false] at hx
    rcases hx with hh | hh | hh | hh
    · exact Or.inl (hh ▸ b64char_mem _ (by omega))
    · exact Or.inl (hh ▸ b64char_mem _ (by omega))
    · exact Or.inl (hh ▸ b64char_mem _ (by omega))
    · exact Or.inr hh
  | a :: b :: c :: rest => fun h x hx => by
    have ha : a < 256 := h a (by simp)
    have hb : b < 256 := h b (by simp)
    have hc : c < 256 := h c (by simp)
    simp only [base64encode, List.mem_append, List.mem_cons, List.not_mem_nil,
      or_false] at hx
    rcases hx with (hh | hh | hh | hh) | hh
    · exact Or.inl (hh ▸ b64char_mem _ (by omega))
    · exact Or.inl (hh ▸ b64char_mem _ (by omega))
    · exact Or.inl (hh ▸ b64char_mem _ (by omega))
    · exact Or.inl (hh ▸ b64char_mem _ (by omega))
    · exact base64encode_alphabet rest (fun y hy => h y (by simp [hy])) x hh

/-- Every character of the grouped form is an alphabet character (every
index is masked with `& 0x3f`); the dead `=` branches contribute
nothing. -/
theorem fallbackGroups_alphabet :
    ∀ s : List Nat, ∀ x ∈ fallbackGroups s, x ∈ base64chars
  | [] => fun x hx => by simp [fallbackGroups] at hx
  | [a] => fun x hx => by
    simp only [fallbackGroups, List.mem_cons, List.not_mem_nil, or_false] at hx
    rcases hx with hh | hh | hh | hh <;> exact hh ▸ b64char_mem _ (and63_lt _)
  | [a, b] => fun x hx => by
    simp only [fallbackGroups, List.mem_cons, List.not_mem_nil, or_false] at hx
    rcases hx with hh | hh | hh | hh <;> exact hh ▸ b64char_mem _ (and63_lt _)
  | a :: b :: c :: rest => fun x hx => by
    simp only [fallbackGroups, List.mem_append, List.mem_cons, List.not_mem_nil,
      or_false] at hx
    rcases hx with (hh | hh | hh | hh) | hh
    · exact hh ▸ b64char_mem _ (and63_lt _)
    · exact hh ▸ b64char_mem _ (and63_lt _)
    · exact hh ▸ b64char_mem _ (and63_lt _)
    · exact hh ▸ b64char_mem _ (and63_lt _)
    · exact fallbackGroups_alphabet rest x hh

/-- Characters emitted by the fallback loop, for any input at all: alphabet
or `=` (in fact `=` is never emitted, see `fallbackBtoa_no_pad`). -/
theorem fallbackBtoa_alphabet :
    ∀ s : List Nat, ∀ x ∈ fallbackBtoa s, x ∈ base64chars ∨ x = 61 := by
  intro s x hx
  rw [fallbackBtoa_eq_groups] at hx
  exact Or.inl (fallbackGroups_alphabet s x hx)

/-- The fallback loop never emits the padding character `=`: its `=`
conditions compare an index that never exceeds the length against the
length. -/
theorem fallbackBtoa_no_pad (s : List Nat) : 61 ∉ fallbackBtoa s := by
  rw [fallbackBtoa_eq_groups]
  intro hmem
  have h := fallbackGroups_alphabet s 61 hmem
  revert h
  decide

/-- Decoding the real fallback output of a byte input returns the input
zero-padded to a multiple of 3 — the original text plus one or two
trailing NUL bytes whenever its length is not a multiple of 3. -/
theorem atob_fallbackBtoa (s : List Nat) (h : ∀ c ∈ s, c < 256) :
    atob (fallbackBtoa s) =
      some (s ++ List.replicate ((3 - s.length % 3) % 3) 0) := by
  rw [fallbackBtoa_eq_encode_zeroPad s h]
  apply atob_base64encode
  intro c hc
  rcases List.mem_append.mp hc with h1 | h1
  · exact h c h1
  · rw [List.eq_of_mem_replicate h1]
    norm_num

/-- Every character `safeBtoa` emits is an alphabet character or `=`. -/
theorem safeBtoa_alphabet :
    ∀ s : List Nat, ∀ c ∈ safeBtoa s, c ∈ base64chars ∨ c = 61 := by
  intro s c hc
  unfold safeBtoa at hc
  by_cases hall : s.all (fun c => c < 256)
  · rw [if_pos hall] at hc
    exact base64encode_alphabet s (by simpa [List.all_eq_true] using hall) c hc
  · rw [if_neg hall] at hc
    exact fallbackBtoa_alphabet s c hc

/-! ## Split/join lemmas -/

/-- `split` never returns an empty list of pieces. -/
theorem splitOnChar_ne_nil (sep : Nat) : ∀ s : List Nat, splitOnChar sep s ≠ []
  | [] => by simp [splitOnChar]
  | c :: rest => by
    have := splitOnChar_ne_nil sep rest
    cases hsp : splitOnChar sep rest with
    | nil => exact absurd hsp this
    | cons w ws => by_cases hc : c = sep <;> simp [splitOnChar, hsp, hc]

/-- Splitting a separator-free string returns the string as its only piece. -/
theorem splitOnChar_no_sep (sep : Nat) :
    ∀ w : List Nat, sep ∉ w → splitOnChar sep w = [w]
  | [] => fun _ => rfl
  | c :: rest => fun h => by
    have hc : ¬ c = sep := fun e => h (by simp [e])
    have ih := splitOnChar_no_sep sep rest (fun hm => h (by simp [hm]))
    simp [splitOnChar, ih, hc]

/-- Splitting a string that starts with the separator. -/
theorem splitOnChar_cons_sep (sep : Nat) (rest : List Nat) :
    splitOnChar sep (sep :: rest) = [] :: splitOnChar sep rest := by
  cases hsp : splitOnChar sep rest with
  | nil => exact absurd hsp (splitOnChar_ne_nil sep rest)
  | cons w ws => simp [splitOnChar, hsp]

/-- Peeling the first piece off a split. -/
theorem splitOnChar_append (sep : Nat) :
    ∀ w rest : List Nat, sep ∉ w →
      splitOnChar sep (w ++ sep :: rest) = w :: splitOnChar sep rest
  | [], rest => fun _ => splitOnChar_cons_sep sep rest
  | c :: w', rest => fun h => by
    have hc : ¬ c = sep := fun e => h (by simp [e])
    have ih := splitOnChar_append sep w' rest (fun hm => h (by simp [hm]))
    have hne := splitOnChar_ne_nil sep (w' ++ sep :: rest)
    show splitOnChar sep (c :: (w' ++ sep :: rest)) = (c :: w') :: splitOnChar sep rest
    cases hsp : splitOnChar sep (w' ++ sep :: rest) with
    | nil => exact absurd hsp hne
    | cons u us =>
      rw [hsp] at ih
      simp only [List.cons.injEq] at ih
      simp [splitOnChar, hsp, hc, ih.1, ih.2]

/-- `split` inverts `join` on a single-character separator when no piece
contains the separator. -/
theorem splitOnChar_joinSep (sep : Nat) :
    ∀ ws : List (List Nat), ws ≠ [] → (∀ w ∈ ws, sep ∉ w) →
      splitOnChar sep (joinSep [sep] ws) = ws
  | [] => fun h _ => absurd rfl h
  | [w] => fun _ hall => by
    simpa [joinSep] using splitOnChar_no_sep sep w (hall w (by simp))
  | w :: w' :: ws => fun _ hall => by
    have ih := splitOnChar_joinSep sep (w' :: ws) (by simp)
      (fun x hx => hall x (List.mem_cons_of_mem _ hx))
    show splitOnChar sep (w ++ [sep] ++ joinSep [sep] (w' :: ws)) = _
    have he : w ++ [sep] ++ joinSep [sep] (w' :: ws) =
        w ++ sep :: joinSep [sep] (w' :: ws) := by simp
    rw [he, splitOnChar_append sep w _ (hall w (by simp)), ih]

/-- Characters of a join come from the separator or from some piece. -/
theorem mem_joinSep (sep : List Nat) :
    ∀ (ls : List (List Nat)) (c : Nat), c ∈ joinSep sep ls →
      c ∈ sep ∨ ∃ l ∈ ls, c ∈ l
  | [] => fun c hc => by simp [joinSep] at hc
  | [w] => fun c hc => Or.inr ⟨w, by simp, hc⟩
  | w :: w' :: ws => fun c hc => by
    have hc2 : c ∈ w ++ sep ++ joinSep sep (w' :: ws) := hc
    rcases List.mem_append.mp hc2 with hc' | hc'
    · rcases List.mem_append.mp hc' with hw | hs
      · exact Or.inr ⟨w, by simp, hw⟩
      · exact Or.inl hs
    · rcases mem_joinSep sep (w' :: ws) c hc' with hs | ⟨l, hl, hcl⟩
      · exact Or.inl hs
      · exact Or.inr ⟨l, List.mem_cons_of_mem _ hl, hcl⟩

/-- Splitting a `", "`-join on the comma: the first piece is intact and
every later piece carries the pending space. -/
theorem splitOnChar_joinSep_commaSpace :
    ∀ (p : List Nat) (rest : List (List Nat)), (44 : Nat) ∉ p →
      (∀ q ∈ rest, (44 : Nat) ∉ q) →
      splitOnChar 44 (joinSep [44, 32] (p :: rest)) =
        p :: rest.map (fun q => 32 :: q)
  | p, [] => fun hp _ => by simpa [joinSep] using splitOnChar_no_sep 44 p hp
  | p, q :: rest' => fun hp hall => by
    have step : joinSep [44, 32] (p :: q :: rest') =
        p ++ 44 :: joinSep [44, 32] ((32 :: q) :: rest') := by
      show p ++ [44, 32] ++ joinSep [44, 32] (q :: rest') = _
      cases rest' with
      | nil => simp [joinSep]
      | cons r rs =>
        show p ++ [44, 32] ++ (q ++ [44, 32] ++ joinSep [44, 32] (r :: rs)) =
          p ++ 44 :: ((32 :: q) ++ [44, 32] ++ joinSep [44, 32] (r :: rs))
        simp
    have ih := splitOnChar_joinSep_commaSpace (32 :: q) rest'
      (by simpa using hall q (by simp))
      (fun x hx => hall x (List.mem_cons_of_mem _ hx))
    rw [step, splitOnChar_append 44 p _ hp, ih]
    simp

/-! ## Trim lemmas -/

/-- `dropWhile` is the identity when the head does not satisfy the predicate. -/
theorem dropWhile_head_false (p : Nat → Bool) :
    ∀ l : List Nat, (∀ c, l.head? = some c → p c = false) → l.dropWhile p = l
  | [] => fun _ => rfl
  | c :: rest => fun h => by
    have := h c rfl
    simp [List.dropWhile, this]

/-- `trim` drops one leading space. -/
theorem trimJS_cons_space (s : List Nat) : trimJS (32 :: s) = trimJS s := by
  simp [trimJS, List.dropWhile, isJsSpace]

/-- `trim` is the identity on a string whose first and last characters are
not whitespace. -/
theorem trimJS_eq_self (t : List Nat)
    (h1 : ∀ c, t.head? = some c → isJsSpace c = false)
    (h2 : ∀ c, t.getLast? = some c → isJsSpace c = false) :
    trimJS t = t := by
  unfold trimJS
  rw [dropWhile_head_false isJsSpace t h1]
  rw [dropWhile_head_false isJsSpace t.reverse
    (fun c hc => h2 c (by rwa [← List.head?_reverse]))]
  exact List.reverse_reverse t

/-- Head of a space-join whose first piece starts with `c`. -/
theorem joinSep_space_head (c : Nat) (w : List Nat) (ws : List (List Nat)) :
    (joinSep [32] ((c :: w) :: ws)).head? = some c := by
  cases ws with
  | nil => rfl
  | cons w' ws' =>
    show ((c :: w) ++ [32] ++ joinSep [32] (w' :: ws')).head? = some c
    simp

/-- A join surrounding at least one nonempty piece is nonempty. -/
theorem joinSep_concat_ne_nil :
    ∀ (ws : List (List Nat)) (w : List Nat), w ≠ [] →
      joinSep [32] (ws ++ [w]) ≠ []
  | [], w => fun hw => by simpa [joinSep] using hw
  | u :: ws', w => fun hw => by
    show joinSep [32] (u :: (ws' ++ [w])) ≠ []
    cases hws : ws' ++ [w] with
    | nil => exact absurd (List.append_eq_nil.mp hws).2 (by simp)
    | cons v vs =>
      show u ++ [32] ++ joinSep [32] (v :: vs) ≠ []
      simp

/-- Last character of a space-join ending in a nonempty piece. -/
theorem joinSep_space_getLast :
    ∀ (ws : List (List Nat)) (w : List Nat), w ≠ [] →
      (joinSep [32] (ws ++ [w])).getLast? = w.getLast?
  | [], w => fun _ => by simp [joinSep]
  | u :: ws', w => fun hw => by
    have ih := joinSep_space_getLast ws' w hw
    have hne := joinSep_concat_ne_nil ws' w hw
    show (joinSep [32] (u :: (ws' ++ [w]))).getLast? = w.getLast?
    cases hws : ws' ++ [w] with
    | nil => exact absurd (List.append_eq_nil.mp hws).2 (by simp)
    | cons v vs =>
      rw [hws] at ih hne
      show (u ++ [32] ++ joinSep [32] (v :: vs)).getLast? = w.getLast?
      rw [← ih, List.getLast?_append]
      cases hgl : (joinSep [32] (v :: vs)).getLast? with
      | none => exact absurd (List.getLast?_eq_none_iff.mp hgl) hne
      | some x => simp

/-! ## Calendar lemmas -/

/-- Arithmetic characterisation of the leap-year test. -/
theorem isLeap_iff (y : Nat) :
    isLeap y = true ↔ (y % 4 = 0 ∧ y % 100 ≠ 0) ∨ y % 400 = 0 := by
  simp [isLeap, Bool.or_eq_true, Bool.and_eq_true, decide_eq_true_eq, bne_iff_ne]

/-- Cumulative month lengths: passing a month boundary adds that month's
length. -/
theorem daysBeforeMonth_succ (y m : Nat) (h1 : 1 ≤ m) (h2 : m ≤ 11) :
    daysBeforeMonth y (m + 1) = daysBeforeMonth y m + daysInMonth y m := by
  interval_cases m <;>
    by_cases hl : isLeap y <;> simp [daysBeforeMonth, daysInMonth, hl]

/-- Cumulative days before December, with the leap test in arithmetic form. -/
theorem daysBeforeMonth_12 (y : Nat) :
    daysBeforeMonth y 12 =
      334 + (if (y % 4 = 0 ∧ y % 100 ≠ 0) ∨ y % 400 = 0 then 1 else 0) := by
  by_cases hc : (y % 4 = 0 ∧ y % 100 ≠ 0) ∨ y % 400 = 0
  · rw [if_pos hc]
    have hl : isLeap y = true := (isLeap_iff y).mpr hc
    simp [daysBeforeMonth, hl]
  · rw [if_neg hc]
    have hl : isLeap y = false := by
      cases hb : isLeap y
      · rfl
      · exact absurd ((isLeap_iff y).mp hb) hc
    simp [daysBeforeMonth, hl]

/-- Crossing a year boundary adds 365 days plus the leap day of the old
year to the day count. -/
theorem civilYearStep (y : Nat) (hy : 1 ≤ y) :
    365 * y + y / 4 - y / 100 + y / 400 =
      365 * (y - 1) + (y - 1) / 4 - (y - 1) / 100 + (y - 1) / 400 + 365 +
        (if (y % 4 = 0 ∧ y % 100 ≠ 0) ∨ y % 400 = 0 then 1 else 0) := by
  have h4 : y % 4 = 0 → y / 4 = (y - 1) / 4 + 1 := by omega
  have h4' : y % 4 ≠ 0 → y / 4 = (y - 1) / 4 := by omega
  have h100 : y % 100 = 0 → y / 100 = (y - 1) / 100 + 1 := by omega
  have h100' : y % 100 ≠ 0 → y / 100 = (y - 1) / 100 := by omega
  have h400 : y % 400 = 0 → y / 400 = (y - 1) / 400 + 1 := by omega
  have h400' : y % 400 ≠ 0 → y / 400 = (y - 1) / 400 := by omega
  have d41 : y % 100 = 0 → y % 4 = 0 := by omega
  have d42 : y % 400 = 0 → y % 100 = 0 := by omega
  by_cases c4 : y % 4 = 0
  · by_cases c100 : y % 100 = 0
    · by_cases c400 : y % 400 = 0
      · rw [h4 c4, h100 c100, h400 c400, if_pos (Or.inr c400)]
        omega
      · rw [h4 c4, h100 c100, h400' c400, if_neg (by tauto)]
        omega
    · have c400 : y % 400 ≠ 0 := fun hc => c100 (d42 hc)
      rw [h4 c4, h100' c100, h400' c400, if_pos (Or.inl ⟨c4, c100⟩)]
      omega
  · have c100 : y % 100 ≠ 0 := fun hc => c4 (d41 hc)
    have c400 : y % 400 ≠ 0 := fun hc => c100 (d42 hc)
    rw [h4' c4, h100' c100, h400' c400, if_neg (by tauto)]
    omega

/-- Adding one hour advances the linearised clock by exactly 60 minutes on
every valid instant (rolling over midnight, month ends and year ends). -/
theorem instantMinutes_addOneHour (i : LocalInstant) (h : validInstant i) :
    instantMinutes (addOneHour i) = instantMinutes i + 60 := by
  obtain ⟨hy, hm1, hm2, hd1, hd2, hh, hmin⟩ := h
  unfold addOneHour
  by_cases h1 : i.hour + 1 ≤ 23
  · simp only [if_pos h1]
    simp only [instantMinutes]
    omega
  · simp only [if_neg h1]
    by_cases h2 : i.day + 1 ≤ daysInMonth i.year i.month
    · simp only [if_pos h2]
      have hstep : daysFromCivil i.year i.month (i.day + 1) =
          daysFromCivil i.year i.month i.day + 1 := by
        simp only [daysFromCivil]
        omega
      simp only [instantMinutes]
      rw [hstep]
      omega
    · simp only [if_neg h2]
      by_cases h3 : i.month + 1 ≤ 12
      · simp only [if_pos h3]
        have key := daysBeforeMonth_succ i.year i.month hm1 (by omega)
        have hdim : i.day = daysInMonth i.year i.month := by omega
        have hstep : daysFromCivil i.year (i.month + 1) 1 =
            daysFromCivil i.year i.month i.day + 1 := by
          simp only [daysFromCivil]
          omega
        simp only [instantMinutes]
        rw [hstep]
        omega
      · simp only [if_neg h3]
        have hm12 : i.month = 12 := by omega
        have hd31 : i.day = 31 := by
          rw [hm12] at hd2 h2
          simp [daysInMonth] at hd2 h2
          omega
        have hjan : daysBeforeMonth (i.year + 1) 1 = 0 := rfl
        have hdbm := daysBeforeMonth_12 i.year
        have hys := civilYearStep i.year hy
        have hstep : daysFromCivil (i.year + 1) 1 1 =
            daysFromCivil i.year 12 31 + 1 := by
          simp only [daysFromCivil, hjan, hdbm, Nat.add_sub_cancel]
          by_cases hc : (i.year % 4 = 0 ∧ i.year % 100 ≠ 0) ∨ i.year % 400 = 0
          · rw [if_pos hc] at hys ⊢
            omega
          · rw [if_neg hc] at hys ⊢
            omega
        simp only [instantMinutes, hm12, hd31]
        rw [hstep]
        omega

/-! ## Zeller's congruence agrees with the day-count weekday -/

/-- Index correspondence between Zeller's `h` (0 = Saturday) and the
day-count weekday (0 = Monday): for every valid proleptic Gregorian date
with a positive year, the day count mod 7 is Zeller's value shifted by 5. -/
theorem zeller_index (y m d : Nat) (hy : 1 ≤ y) (hm1 : 1 ≤ m) (hm2 : m ≤ 12)
    (hd : 1 ≤ d) :
    daysFromCivil y m d % 7 = (zellerH y m d + 5) % 7 := by
  simp only [zellerH, daysFromCivil]
  by_cases hm3 : m < 3
  · simp only [if_pos hm3]
    interval_cases m
    · simp only [daysBeforeMonth]
      omega
    · simp only [daysBeforeMonth]
      omega
  · simp only [if_neg hm3]
    have hys := civilYearStep y hy
    interval_cases m <;>
      (simp only [daysBeforeMonth]
       by_cases hc : (y % 4 = 0 ∧ y % 100 ≠ 0) ∨ y % 400 = 0
       · have hl : isLeap y = true := (isLeap_iff y).mpr hc
         rw [if_pos hc] at hys
         simp only [hl, if_true]
         omega
       · have hl : isLeap y = false := by
           cases hb : isLeap y
           · rfl
           · exact absurd ((isLeap_iff y).mp hb) hc
         rw [if_neg hc] at hys
         simp [hl]
         omega)

/-! ## Character bounds of the generated document -/

/-- Digits produced by the decimal conversion are ASCII digits. -/
theorem natDigitsRevAux_bound :
    ∀ (fuel n : Nat), ∀ c ∈ natDigitsRevAux fuel n, 48 ≤ c ∧ c ≤ 57
  | 0, _ => by simp [natDigitsRevAux]
  | fuel + 1, n => by
    intro c hc
    by_cases hn : n = 0
    · simp [natDigitsRevAux, hn] at hc
    · simp only [natDigitsRevAux, if_neg hn, List.mem_cons] at hc
      rcases hc with hc | hc
      · omega
      · exact natDigitsRevAux_bound fuel (n / 10) c hc

/-- The decimal string of a number consists of ASCII digits. -/
theorem natToStr_bound (n : Nat) : ∀ c ∈ natToStr n, 48 ≤ c ∧ c ≤ 57 := by
  intro c hc
  unfold natToStr at hc
  by_cases hn : n = 0
  · simp [hn] at hc
    omega
  · rw [if_neg hn, List.mem_reverse] at hc
    exact natDigitsRevAux_bound n n c hc

/-- Two-digit padding also yields ASCII digits. -/
theorem pad2_bound (n : Nat) : ∀ c ∈ pad2 n, 48 ≤ c ∧ c ≤ 57 := by
  intro c hc
  unfold pad2 at hc
  by_cases hn : n < 10
  · rw [if_pos hn] at hc
    rcases List.mem_cons.mp hc with hc | hc
    · omega
    · exact natToStr_bound n c hc
  · rw [if_neg hn] at hc
    exact natToStr_bound n c hc

/-- The ICS instant string is pure ASCII. -/
theorem formatDateForICS_bound (o : Option LocalInstant) :
    ∀ c ∈ formatDateForICS o, c < 256 := by
  intro c hc
  cases o with
  | none =>
    simp only [formatDateForICS] at hc
    revert hc
    revert c
    decide
  | some i =>
    simp only [formatDateForICS, List.mem_append, List.mem_cons,
      List.not_mem_nil, or_false] at hc
    rcases hc with ((((((hc | hc) | hc) | hc) | hc) | hc) | hc) | hc
    · have := natToStr_bound i.year c hc
      omega
    · have := pad2_bound i.month c hc
      omega
    · have := pad2_bound i.day c hc
      omega
    · omega
    · have := pad2_bound i.hour c hc
      omega
    · have := pad2_bound i.minute c hc
      omega
    · revert hc
      have : ∀ x ∈ ofString "00", x < 256 := by decide
      exact this c
    · omega

/-- Escaping only introduces ASCII characters. -/
theorem formatICSValue_bound (v : Option (List Nat))
    (h : ∀ s, v = some s → ∀ c ∈ s, c < 256) :
    ∀ c ∈ formatICSValue v, c < 256 := by
  intro c hc
  cases v with
  | none => simp [formatICSValue] at hc
  | some s =>
    have hs := h s rfl
    simp only [formatICSValue] at hc
    split at hc
    · simp at hc
    · rcases List.mem_flatMap.mp hc with ⟨x, hx, hcx⟩
      rcases List.mem_flatMap.mp hx with ⟨u, hu, hxu⟩
      have hub := hs u hu
      by_cases h10 : u = 10
      · rw [if_pos h10] at hxu
        rcases List.mem_cons.mp hxu with h | h
        · subst h
          simp at hcx
          omega
        · have h110 : x = 110 := by simpa using h
          subst h110
          simp at hcx
          omega
      · rw [if_neg h10] at hxu
        have hxu2 : x = u := by simpa using hxu
        subst hxu2
        by_cases h44 : x = 44
        · rw [if_pos h44] at hcx
          rcases List.mem_cons.mp hcx with h | h
          · omega
          · have hc44 : c = 44 := by simpa using h
            omega
        · rw [if_neg h44] at hcx
          have hcu : c = x := by simpa using hcx
          omega

/-- Every line of the generated document is pure Latin-1 text when the
three free-text fields are. -/
theorem icsDocLines_bound (ts : Nat) (e : EventData) (sd st : List Nat)
    (ht : ∀ s, e.event_title = some s → ∀ c ∈ s, c < 256)
    (hlo : ∀ s, e.location = some s → ∀ c ∈ s, c < 256)
    (hde : ∀ s, e.description = some s → ∀ c ∈ s, c < 256) :
    ∀ l ∈ icsDocLines ts e sd st, ∀ c ∈ l, c < 256 := by
  intro l hl
  simp only [icsDocLines] at hl
  have hl2 := List.mem_of_mem_filter hl
  simp only [List.mem_cons, List.not_mem_nil, or_false] at hl2
  rcases hl2 with h|h|h|h|h|h|h|h|h|h|h|h|h|h|h
  · exact h ▸ (by decide : ∀ c ∈ ofString "BEGIN:VCALENDAR", c < 256)
  · exact h ▸ (by decide : ∀ c ∈ ofString "VERSION:2.0", c < 256)
  · exact h ▸ (by decide : ∀ c ∈ ofString "PRODID:-//LiteCal//EN", c < 256)
  · exact h ▸ (by decide : ∀ c ∈ ofString "CALSCALE:GREGORIAN", c < 256)
  · exact h ▸ (by decide : ∀ c ∈ ofString "METHOD:PUBLISH", c < 256)
  · exact h ▸ (by decide : ∀ c ∈ ofString "BEGIN:VEVENT", c < 256)
  · subst h
    intro c hc
    rcases List.mem_append.mp hc with hc' | hc'
    · rcases List.mem_append.mp hc' with hc'' | hc''
      · exact (by decide : ∀ c ∈ ofString "UID:event-", c < 256) c hc''
      · have := natToStr_bound ts c hc''
        omega
    · exact (by decide : ∀ c ∈ ofString "@litecal.app", c < 256) c hc'
  · subst h
    intro c hc
    rcases List.mem_append.mp hc with hc' | hc'
    · exact (by decide : ∀ c ∈ ofString "DTSTAMP:", c < 256) c hc'
    · exact formatDateForICS_bound _ c hc'
  · subst h
    intro c hc
    rcases List.mem_append.mp hc with hc' | hc'
    · exact (by decide : ∀ c ∈ ofString "DTSTART:", c < 256) c hc'
    · exact formatDateForICS_bound _ c hc'
  · subst h
    intro c hc
    rcases List.mem_append.mp hc with hc' | hc'
    · exact (by decide : ∀ c ∈ ofString "DTEND:", c < 256) c hc'
    · exact formatDateForICS_bound _ c hc'
  · subst h
    intro c hc
    rcases List.mem_append.mp hc with hc' | hc'
    · exact (by decide : ∀ c ∈ ofString "SUMMARY:", c < 256) c hc'
    · by_cases hs : formatICSValue e.event_title = []
      · rw [if_pos hs] at hc'
        exact (by decide : ∀ c ∈ ofString "Calendar Event", c < 256) c hc'
      · rw [if_neg hs] at hc'
        exact formatICSValue_bound e.event_title ht c hc'
  · subst h
    intro c hc
    by_cases hs : formatICSValue e.location = []
    · rw [if_pos hs] at hc
      simp at hc
    · rw [if_neg hs] at hc
      rcases List.mem_append.mp hc with hc' | hc'
      · exact (by decide : ∀ c ∈ ofString "LOCATION:", c < 256) c hc'
      · exact formatICSValue_bound e.location hlo c hc'
  · subst h
    intro c hc
    by_cases hs : formatICSValue e.description = []
    · rw [if_pos hs] at hc
      simp at hc
    · rw [if_neg hs] at hc
      rcases List.mem_append.mp hc with hc' | hc'
      · exact (by decide : ∀ c ∈ ofString "DESCRIPTION:", c < 256) c hc'
      · exact formatICSValue_bound e.description hde c hc'
  · exact h ▸ (by decide : ∀ c ∈ ofString "END:VEVENT", c < 256)
  · exact h ▸ (by decide : ∀ c ∈ ofString "END:VCALENDAR", c < 256)

/-- The whole generated document is Latin-1 when the free-text fields are. -/
theorem icsDocText_bound (ts : Nat) (e : EventData)
    (ht : ∀ s, e.event_title = some s → ∀ c ∈ s, c < 256)
    (hlo : ∀ s, e.location = some s → ∀ c ∈ s, c < 256)
    (hde : ∀ s, e.description = some s → ∀ c ∈ s, c < 256) :
    ∀ c ∈ icsDocText ts e, c < 256 := by
  intro c hc
  unfold icsDocText at hc
  rcases hsd : e.start_date with _ | sd <;> rcases hst : e.start_time with _ | st <;>
    rw [hsd, hst] at hc
  · exact (by decide : ∀ c ∈ fallbackDoc, c < 256) c hc
  · exact (by decide : ∀ c ∈ fallbackDoc, c < 256) c hc
  · exact (by decide : ∀ c ∈ fallbackDoc, c < 256) c hc
  · rcases mem_joinSep _ _ c hc with hs | ⟨l, hlm, hcl⟩
    · exact (by decide : ∀ c ∈ ofString "\r\n", c < 256) c hs
    · exact icsDocLines_bound ts e sd st ht hlo hde l hlm c hcl

/-! ## Word-level characterisation of the casing functions -/

/-- A space-join of a nonempty list whose first word is nonempty is
nonempty. -/
theorem joinSep_words_ne_nil :
    ∀ ws : List (List Nat), ws ≠ [] → (∀ w ∈ ws, w ≠ []) →
      joinSep [32] ws ≠ []
  | [], h, _ => absurd rfl h
  | [w], _, hw => by simpa [joinSep] using hw w (by simp)
  | w :: w' :: ws, _, _ => by
    show w ++ [32] ++ joinSep [32] (w' :: ws) ≠ []
    simp

/-- A nonempty list has a last element that is a member. -/
theorem getLast?_mem_of_ne_nil (l : List Nat) (h : l ≠ []) :
    ∃ x, l.getLast? = some x ∧ x ∈ l := by
  refine ⟨l.getLast h, ?_, List.getLast_mem h⟩
  exact List.getLast?_eq_getLast l h

/-- `trim` is the identity on a space-join of nonempty space-free words. -/
theorem trim_joinSep_words (ws : List (List Nat)) (hne : ws ≠ [])
    (hw : ∀ w ∈ ws, w ≠ [] ∧ ∀ c ∈ w, isJsSpace c = false) :
    trimJS (joinSep [32] ws) = joinSep [32] ws := by
  apply trimJS_eq_self
  · intro c hc
    cases ws with
    | nil => exact absurd rfl hne
    | cons w rest =>
      rcases hw w (by simp) with ⟨hwne, hwsp⟩
      rcases List.exists_cons_of_ne_nil hwne with ⟨ch, w', rfl⟩
      rw [joinSep_space_head ch w' rest] at hc
      have hcc : ch = c := by simpa using hc
      subst hcc
      exact hwsp ch (by simp)
  · intro c hc
    rcases List.eq_nil_or_concat ws with h | ⟨init, last, heq⟩
    · exact absurd h hne
    · have hmem : last ∈ ws := by
        rw [heq, List.concat_eq_append]
        simp
      rcases hw last hmem with ⟨hlne, hlsp⟩
      rw [heq, List.concat_eq_append, joinSep_space_getLast init last hlne] at hc
      rcases getLast?_mem_of_ne_nil last hlne with ⟨x, hx, hxm⟩
      rw [hx] at hc
      have hxc : x = c := by simpa using hc
      subst hxc
      exact hlsp x hxm

/-- Splitting the space-join of space-free words recovers the words. -/
theorem split_trim_joinSep (ws : List (List Nat)) (hne : ws ≠ [])
    (hw : ∀ w ∈ ws, w ≠ [] ∧ ∀ c ∈ w, isJsSpace c = false) :
    splitOnChar 32 (trimJS (joinSep [32] ws)) = ws := by
  rw [trim_joinSep_words ws hne hw]
  refine splitOnChar_joinSep 32 ws hne ?_
  intro w hwm hc
  have := (hw w hwm).2 32 hc
  simp [isJsSpace] at this

/-- Splitting after dropping a pending leading space likewise recovers the
words. -/
theorem split_trim_space_joinSep (ws : List (List Nat)) (hne : ws ≠ [])
    (hw : ∀ w ∈ ws, w ≠ [] ∧ ∀ c ∈ w, isJsSpace c = false) :
    splitOnChar 32 (trimJS (32 :: joinSep [32] ws)) = ws := by
  rw [trimJS_cons_space]
  exact split_trim_joinSep ws hne hw

/-- No character of a space-join of comma-free words is a comma. -/
theorem comma_not_mem_joinSep (ws : List (List Nat))
    (hw : ∀ w ∈ ws, ∀ c ∈ w, c ≠ 44) :
    (44 : Nat) ∉ joinSep [32] ws := by
  intro hc
  rcases mem_joinSep [32] ws 44 hc with hs | ⟨l, hl, hcl⟩
  · simp at hs
  · exact hw l hl 44 hcl rfl

/-- The two duplicated title-casing implementations are the same function. -/
theorem capitalizeTitle_eq_capitalizeWords (t : List Nat) :
    capitalizeTitle t = capitalizeWords t := rfl

/-- Word-level characterisation of `capitalizeWords`: on a space-join of
space-free words it applies exactly the spec's minor-word rule. -/
theorem capitalizeWords_joinSep (ws : List (List Nat)) (h1 : ws ≠ [])
    (h2 : ∀ w ∈ ws, (32 : Nat) ∉ w) :
    capitalizeWords (joinSep [32] ws) = joinSep [32] (specTitleCase ws) := by
  by_cases hnil : joinSep [32] ws = []
  · have hws : ws = [[]] := by
      cases ws with
      | nil => exact absurd rfl h1
      | cons w rest =>
        cases rest with
        | nil =>
          have : w = [] := by simpa [joinSep] using hnil
          rw [this]
        | cons w' rest' =>
          exfalso
          revert hnil
          show w ++ [32] ++ joinSep [32] (w' :: rest') ≠ []
          simp
    subst hws
    rw [hnil]
    decide
  · have hsplit := splitOnChar_joinSep 32 ws h1 h2
    simp only [capitalizeWords, if_neg hnil, hsplit]
    congr 1
    unfold specTitleCase
    congr 1
    funext i w
    by_cases hi0 : i = 0 <;> by_cases hil : i = ws.length - 1 <;>
      by_cases hmw : lowerStr w ∈ minorWords <;>
      simp [specWordCase, hi0, hil, hmw]

/-- Word-level characterisation of `formatLocation`: on a `", "`-join of
space-joined components it applies `locWordRuleA` per component — the
reduced minor-word list, with only the words equal to the component's first
word exempt from lowercasing. -/
theorem formatLocation_words (wss : List (List (List Nat)))
    (hne : wss ≠ []) (hw : ∀ ws ∈ wss, goodWords ws) :
    formatLocation (joinSep (ofString ", ") (wss.map (joinSep [32]))) =
      joinSep (ofString ", ") (wss.map (fun ws => joinSep [32] (locWordRuleA ws))) := by
  rcases wss with _ | ⟨ws0, rest⟩
  · exact absurd rfl hne
  · have hsep : ofString ", " = [44, 32] := by decide
    have hg0 := hw ws0 (by simp)
    have ht0ne : joinSep [32] ws0 ≠ [] :=
      joinSep_words_ne_nil ws0 hg0.1 (fun w hwm => (hg0.2 w hwm).1)
    have hnosp : ∀ ws ∈ ws0 :: rest, ws ≠ [] ∧ ∀ w ∈ ws, w ≠ [] ∧
        ∀ c ∈ w, isJsSpace c = false := by
      intro ws hm
      exact ⟨(hw ws hm).1, fun w hwm =>
        ⟨((hw ws hm).2 w hwm).1, fun c hc => (((hw ws hm).2 w hwm).2 c hc).1⟩⟩
    have hnocomma : ∀ ws ∈ ws0 :: rest, (44 : Nat) ∉ joinSep [32] ws := by
      intro ws hm
      exact comma_not_mem_joinSep ws (fun w hwm c hc => (((hw ws hm).2 w hwm).2 c hc).2)
    have hloc : joinSep [44, 32] (joinSep [32] ws0 :: rest.map (joinSep [32])) ≠ [] := by
      cases hrest : rest.map (joinSep [32]) with
      | nil => simpa [joinSep] using ht0ne
      | cons t ts =>
        show joinSep [32] ws0 ++ [44, 32] ++ joinSep [44, 32] (t :: ts) ≠ []
        simp
    have hsplit : splitOnChar 44 (joinSep [44, 32]
          (joinSep [32] ws0 :: rest.map (joinSep [32]))) =
        joinSep [32] ws0 :: (rest.map (joinSep [32])).map (fun q => 32 :: q) :=
      splitOnChar_joinSep_commaSpace (joinSep [32] ws0) (rest.map (joinSep [32]))
        (hnocomma ws0 (by simp))
        (by
          intro q hq
          rcases List.mem_map.mp hq with ⟨ws, hwsm, rfl⟩
          exact hnocomma ws (List.mem_cons_of_mem _ hwsm))
    simp only [formatLocation, hsep, List.map_cons]
    rw [if_neg hloc, hsplit]
    simp only [List.map_cons, List.map_map]
    congr 1
    congr 1
    · have hsp := split_trim_joinSep ws0 hg0.1
        (fun w hwm => ⟨(hg0.2 w hwm).1, fun c hc => ((hg0.2 w hwm).2 c hc).1⟩)
      simp only [hsp]
      rfl
    · apply List.map_congr_left
      intro ws hm
      have hg := hw ws (List.mem_cons_of_mem _ hm)
      have hsp := split_trim_space_joinSep ws hg.1
        (fun w hwm => ⟨(hg.2 w hwm).1, fun c hc => ((hg.2 w hwm).2 c hc).1⟩)
      simp only [Function.comp, hsp]
      rfl

/-- Word-level characterisation of `capitalizeLocation`: per component it
applies `locWordRuleB` — index 0 capitalized, reduced minor words
lowercased elsewhere, short all-caps words preserved. -/
theorem capitalizeLocation_words (wss : List (List (List Nat)))
    (hne : wss ≠ []) (hw : ∀ ws ∈ wss, goodWords ws) :
    capitalizeLocation (joinSep (ofString ", ") (wss.map (joinSep [32]))) =
      joinSep (ofString ", ") (wss.map (fun ws => joinSep [32] (locWordRuleB ws))) := by
  rcases wss with _ | ⟨ws0, rest⟩
  · exact absurd rfl hne
  · have hsep : ofString ", " = [44, 32] := by decide
    have hg0 := hw ws0 (by simp)
    have ht0ne : joinSep [32] ws0 ≠ [] :=
      joinSep_words_ne_nil ws0 hg0.1 (fun w hwm => (hg0.2 w hwm).1)
    have hnocomma : ∀ ws ∈ ws0 :: rest, (44 : Nat) ∉ joinSep [32] ws := by
      intro ws hm
      exact comma_not_mem_joinSep ws (fun w hwm c hc => (((hw ws hm).2 w hwm).2 c hc).2)
    have hloc : joinSep [44, 32] (joinSep [32] ws0 :: rest.map (joinSep [32])) ≠ [] := by
      cases hrest : rest.map (joinSep [32]) with
      | nil => simpa [joinSep] using ht0ne
      | cons t ts =>
        show joinSep [32] ws0 ++ [44, 32] ++ joinSep [44, 32] (t :: ts) ≠ []
        simp
    have hsplit : splitOnChar 44 (joinSep [44, 32]
          (joinSep [32] ws0 :: rest.map (joinSep [32]))) =
        joinSep [32] ws0 :: (rest.map (joinSep [32])).map (fun q => 32 :: q) :=
      splitOnChar_joinSep_commaSpace (joinSep [32] ws0) (rest.map (joinSep [32]))
        (hnocomma ws0 (by simp))
        (by
          intro q hq
          rcases List.mem_map.mp hq with ⟨ws, hwsm, rfl⟩
          exact hnocomma ws (List.mem_cons_of_mem _ hwsm))
    simp only [capitalizeLocation, hsep, List.map_cons]
    rw [if_neg hloc, hsplit]
    simp only [List.map_cons, List.map_map]
    congr 1
    congr 1
    · have hsp := split_trim_joinSep ws0 hg0.1
        (fun w hwm => ⟨(hg0.2 w hwm).1, fun c hc => ((hg0.2 w hwm).2 c hc).1⟩)
      simp only [hsp]
      rfl
    · apply List.map_congr_left
      intro ws hm
      have hg := hw ws (List.mem_cons_of_mem _ hm)
      have hsp := split_trim_space_joinSep ws hg.1
        (fun w hwm => ⟨(hg.2 w hwm).1, fun c hc => ((hg.2 w hwm).2 c hc).1⟩)
      simp only [Function.comp, hsp]
      rfl

/-! # Claims -/

set_option maxRecDepth 100000 in
/-- C1, counterexample to the claim as stated: for an event whose title
contains the code unit 8364 (`€`, above 255), decoding the transport
encoding of the generated document does not return the document — both the
platform `btoa` (which throws, diverting to the fallback) and the fallback
loop itself truncate code units above 255, so the claimed law fails for
this title even though it is a legitimate `generateICSFile` input. -/
theorem c1_roundtrip_counterexample :
    atob (safeBtoa (icsDocText 0
        { event_title := some (ofString "Fête €vent"),
          start_date := some (ofString "2024-03-10"),
          start_time := some (ofString "14:00") })) ≠
      some (icsDocText 0
        { event_title := some (ofString "Fête €vent"),
          start_date := some (ofString "2024-03-10"),
          start_time := some (ofString "14:00") }) := by
  unfold safeBtoa
  rw [if_neg (by decide), fallbackBtoa_eq_groups]
  decide

/-- C1, amended: the round-trip law holds for every generated document all
of whose free-text fields consist of code units below 256 (in particular
for all ASCII/Latin-1 titles, locations and descriptions), with any `UID`
timestamp — through `safeBtoa`, whose platform-`btoa` branch is the one
taken on such documents.  The pure fallback loop does not round-trip
exactly: its unpadded output decodes to the document zero-padded to a
multiple of 3, i.e. the original text plus one or two trailing NUL bytes
whenever the document length is not a multiple of 3 (and the document
itself exactly when it is). -/
theorem c1_roundtrip_amended (ts : Nat) (e : EventData)
    (ht : ∀ s, e.event_title = some s → ∀ c ∈ s, c < 256)
    (hlo : ∀ s, e.location = some s → ∀ c ∈ s, c < 256)
    (hde : ∀ s, e.description = some s → ∀ c ∈ s, c < 256) :
    atob (safeBtoa (icsDocText ts e)) = some (icsDocText ts e) ∧
      atob (fallbackBtoa (icsDocText ts e)) =
        some (icsDocText ts e ++
          List.replicate ((3 - (icsDocText ts e).length % 3) % 3) 0) := by
  have hb := icsDocText_bound ts e ht hlo hde
  have hall : (icsDocText ts e).all (fun c => c < 256) = true := by
    rw [List.all_eq_true]
    intro x hx
    simpa using hb x hx
  constructor
  · unfold safeBtoa
    rw [if_pos hall]
    exact atob_base64encode _ hb
  · exact atob_fallbackBtoa _ hb

/-- C1, witness: the amended round trip at a concrete Latin-1 event. -/
theorem c1_roundtrip_witness :
    atob (safeBtoa (icsDocText 7
        { event_title := some (ofString "Team sync"),
          start_date := some (ofString "2024-03-10"),
          start_time := some (ofString "14:00"),
          location := some (ofString "HQ, room 4"),
          description := some (ofString "line1\nline2, end") })) =
      some (icsDocText 7
        { event_title := some (ofString "Team sync"),
          start_date := some (ofString "2024-03-10"),
          start_time := some (ofString "14:00"),
          location := some (ofString "HQ, room 4"),
          description := some (ofString "line1\nline2, end") }) := by
  have h := c1_roundtrip_amended 7
    { event_title := some (ofString "Team sync"),
      start_date := some (ofString "2024-03-10"),
      start_time := some (ofString "14:00"),
      location := some (ofString "HQ, room 4"),
      description := some (ofString "line1\nline2, end") }
    (by intro s hs; injection hs with h2; subst h2; decide)
    (by intro s hs; injection hs with h2; subst h2; decide)
    (by intro s hs; injection hs with h2; subst h2; decide)
  exact h.1

/-- C2, counterexample to the claim as stated: on the 2-byte input `"Ma"`
the fallback loop emits `"TWEA"`, not the standard base64 `"TWE="` — the
padding position carries the zero-bits alphabet character `A` instead of
`=`. -/
theorem c2_fallback_counterexample :
    fallbackBtoa (ofString "Ma") ≠ base64encode (ofString "Ma") ∧
      fallbackBtoa (ofString "Ma") = ofString "TWEA" ∧
      base64encode (ofString "Ma") = ofString "TWE=" := by
  rw [fallbackBtoa_eq_groups]
  refine ⟨by decide, by decide, by decide⟩

/-- C2, the bug, characterised: the `=` branches of the fallback loop are
dead — the running index is only incremented under `i < str.length`
guards, so the conditions `i > str.length + 1` and `i > str.length` never
hold.  On byte inputs the loop therefore computes the standard base64 of
the input zero-padded to a multiple of 3 (never emitting `=`), which
differs from the standard base64 of the input itself whenever the input
length is not a multiple of 3. -/
theorem c2_fallback_bug (s : List Nat) (h : ∀ c ∈ s, c < 256) :
    fallbackBtoa s = base64encode (s ++ List.replicate ((3 - s.length % 3) % 3) 0) ∧
      61 ∉ fallbackBtoa s ∧
      (s.length % 3 ≠ 0 → fallbackBtoa s ≠ base64encode s) := by
  refine ⟨fallbackBtoa_eq_encode_zeroPad s h, fallbackBtoa_no_pad s, ?_⟩
  intro hm hcontra
  have hcount := base64encode_count61 s h
  have hzero : (base64encode s).count 61 = 0 := by
    rw [← hcontra]
    exact List.count_eq_zero.mpr (fallbackBtoa_no_pad s)
  omega

/-- C2, witness: the bug characterisation at the concrete 2-byte input
`"Ma"`. -/
theorem c2_fallback_bug_witness :
    (∀ c ∈ ofString "Ma", c < 256) ∧
      (fallbackBtoa (ofString "Ma") =
          base64encode (ofString "Ma" ++
            List.replicate ((3 - (ofString "Ma").length % 3) % 3) 0) ∧
        61 ∉ fallbackBtoa (ofString "Ma") ∧
        ((ofString "Ma").length % 3 ≠ 0 →
          fallbackBtoa (ofString "Ma") ≠ base64encode (ofString "Ma"))) :=
  ⟨by decide, c2_fallback_bug (ofString "Ma") (by decide)⟩

/-- C3: end-instant resolution follows the three-case priority order —
both end fields truthy use them directly, only `end_time` truthy reuses the
parsed start-date parts with the end time, and otherwise the end is one
hour after the start (`getTime() + 60·60·1000`), which advances the
linearised clock by exactly 60 minutes on every valid instant; in
particular the raw input `{startDate: "2024-03-10", startTime: "14:00"}`
with no end fields resolves to the end instant 2024-03-10T15:00. -/
theorem c3_end_resolution (e : EventData) (sd st : List Nat) :
    ((truthy e.end_date && truthy e.end_time) = true →
      resolveEnd e sd st =
        mkJSDate (partAt (dateParts (e.end_date.getD [])) 0)
          (partAt (dateParts (e.end_date.getD [])) 1)
          (partAt (dateParts (e.end_date.getD [])) 2)
          (partAt (timeParts (e.end_time.getD [])) 0)
          (partAt (timeParts (e.end_time.getD [])) 1)) ∧
    ((truthy e.end_date && truthy e.end_time) = false →
      truthy e.end_time = true →
      resolveEnd e sd st =
        mkJSDate (partAt (dateParts sd) 0) (partAt (dateParts sd) 1)
          (partAt (dateParts sd) 2)
          (partAt (timeParts (e.end_time.getD [])) 0)
          (partAt (timeParts (e.end_time.getD [])) 1)) ∧
    (truthy e.end_time = false →
      resolveEnd e sd st = (startInstant sd st).map addOneHour) ∧
    (∀ i, validInstant i → instantMinutes (addOneHour i) = instantMinutes i + 60) ∧
    resolveEnd
        { start_date := some (ofString "2024-03-10"),
          start_time := some (ofString "14:00") }
        (ofString "2024-03-10") (ofString "14:00") =
      some ⟨2024, 3, 10, 15, 0⟩ := by
  refine ⟨?_, ?_, ?_, fun i hv => instantMinutes_addOneHour i hv, by decide⟩
  · intro hb
    simp [resolveEnd, hb]
  · intro ha hb
    simp only [hb, Bool.and_true] at ha
    simp [resolveEnd, ha, hb]
  · intro h0
    simp [resolveEnd, h0, Bool.and_false]

/-- C3, witness: the defaulting law at the concrete spec example. -/
theorem c3_end_resolution_witness :
    resolveEnd
        { start_date := some (ofString "2024-03-10"),
          start_time := some (ofString "14:00") }
        (ofString "2024-03-10") (ofString "14:00") =
      (startInstant (ofString "2024-03-10") (ofString "14:00")).map addOneHour ∧
    instantMinutes (addOneHour ⟨2024, 3, 10, 14, 0⟩) =
      instantMinutes ⟨2024, 3, 10, 14, 0⟩ + 60 := by
  have h := c3_end_resolution
    { start_date := some (ofString "2024-03-10"),
      start_time := some (ofString "14:00") }
    (ofString "2024-03-10") (ofString "14:00")
  exact ⟨h.2.2.1 (by decide), h.2.2.2.1 ⟨2024, 3, 10, 14, 0⟩ (by decide)⟩

set_option maxRecDepth 100000 in
/-- C4, counterexample to the claim as stated: for the raw input with
start 2024-03-10 14:00 and an `end_time` of 09:00 (no end date), the code
silently resolves the end instant to 2024-03-10T09:00 — five hours before
the start — and the generated document carries `DTEND:20240310T090000Z`
before `DTSTART:20240310T140000Z`, with no `NonMonotonicRange` handling
and no fallback; moreover the absent-end default crosses midnight instead
of clipping at 23:59 (23:30 + 1h = next day 00:30). -/
theorem c4_counterexample :
    resolveEnd
        { start_date := some (ofString "2024-03-10"),
          start_time := some (ofString "14:00"),
          end_time := some (ofString "09:00") }
        (ofString "2024-03-10") (ofString "14:00") = some ⟨2024, 3, 10, 9, 0⟩ ∧
    startInstant (ofString "2024-03-10") (ofString "14:00") =
      some ⟨2024, 3, 10, 14, 0⟩ ∧
    instantMinutes (⟨2024, 3, 10, 9, 0⟩ : LocalInstant) <
      instantMinutes (⟨2024, 3, 10, 14, 0⟩ : LocalInstant) ∧
    ofString "DTEND:20240310T090000Z" ∈ icsDocLines 0
        { start_date := some (ofString "2024-03-10"),
          start_time := some (ofString "14:00"),
          end_time := some (ofString "09:00") }
        (ofString "2024-03-10") (ofString "14:00") ∧
    ofString "DTSTART:20240310T140000Z" ∈ icsDocLines 0
        { start_date := some (ofString "2024-03-10"),
          start_time := some (ofString "14:00"),
          end_time := some (ofString "09:00") }
        (ofString "2024-03-10") (ofString "14:00") ∧
    addOneHour ⟨2024, 3, 10, 23, 30⟩ = ⟨2024, 3, 11, 0, 30⟩ := by decide

/-- C4, amended: the end-after-start invariant holds only on the default
path — when no truthy end time is supplied and the start parses to a valid
instant, the resolved end is exactly one hour after the start (rolling over
midnight rather than clipping), hence strictly later; a supplied end time
earlier than the start is emitted silently. -/
theorem c4_end_after_start_amended (e : EventData) (sd st : List Nat)
    (i : LocalInstant) (hnoend : truthy e.end_time = false)
    (hstart : startInstant sd st = some i) (hv : validInstant i) :
    resolveEnd e sd st = some (addOneHour i) ∧
      instantMinutes i < instantMinutes (addOneHour i) := by
  constructor
  · have h3 : resolveEnd e sd st = (startInstant sd st).map addOneHour := by
      simp [resolveEnd, hnoend, Bool.and_false]
    rw [h3, hstart]
    rfl
  · rw [instantMinutes_addOneHour i hv]
    omega

/-- C4, witness: the amended invariant at a concrete input. -/
theorem c4_end_after_start_witness :
    resolveEnd
        { start_date := some (ofString "2024-03-10"),
          start_time := some (ofString "14:00") }
        (ofString "2024-03-10") (ofString "14:00") =
      some (addOneHour ⟨2024, 3, 10, 14, 0⟩) ∧
    instantMinutes (⟨2024, 3, 10, 14, 0⟩ : LocalInstant) <
      instantMinutes (addOneHour ⟨2024, 3, 10, 14, 0⟩) :=
  c4_end_after_start_amended
    { start_date := some (ofString "2024-03-10"),
      start_time := some (ofString "14:00") }
    (ofString "2024-03-10") (ofString "14:00") ⟨2024, 3, 10, 14, 0⟩
    (by decide) (by decide) (by decide)

/-- C5: the weekday shown by `formatDate` is computed by Zeller's
congruence and agrees with the reference Gregorian weekday (day count
modulo 7, anchored at 0001-01-01 being a Monday) for every proleptic
Gregorian date with a positive year; in particular `formatDate` renders
"2024-03-10" as "Sunday, March 10, 2024" and "2000-02-29" as
"Tuesday, February 29, 2000". -/
theorem c5_weekday_zeller (y m d : Nat) (hy : 1 ≤ y) (hm1 : 1 ≤ m)
    (hm2 : m ≤ 12) (hd1 : 1 ≤ d) (hd2 : d ≤ daysInMonth y m) :
    getWeekdayName y m d = gregorianWeekdayName y m d ∧
      formatDate (ofString "2024-03-10") =
        some (ofString "Sunday, March 10, 2024") ∧
      formatDate (ofString "2000-02-29") =
        some (ofString "Tuesday, February 29, 2000") := by
  refine ⟨?_, by decide, by decide⟩
  unfold getWeekdayName gregorianWeekdayName
  have hz : zellerH y m d < 7 := by
    simp only [zellerH]
    exact Nat.mod_lt _ (by norm_num)
  rw [zeller_index y m d hy hm1 hm2 hd1]
  have key : ∀ h : Fin 7,
      dayNames.getD h.val [] = isoDayNames.getD ((h.val + 5) % 7) [] := by decide
  exact key ⟨zellerH y m d, hz⟩

/-- C5, witness: Zeller agrees with the reference weekday at the
leap-boundary date 2000-02-29. -/
theorem c5_weekday_witness :
    getWeekdayName 2000 2 29 = gregorianWeekdayName 2000 2 29 :=
  (c5_weekday_zeller 2000 2 29 (by decide) (by decide) (by decide) (by decide)
    (by decide)).1

/-- C6: both duplicated title-casing implementations implement exactly the
claimed minor-word rule — every word capitalized, a minor word lowercased
unless it is the first or last word — on every space-join of space-free
words, and both map "a trip to the lake" to "A Trip to the Lake". -/
theorem c6_title_case (ws : List (List Nat)) (h1 : ws ≠ [])
    (h2 : ∀ w ∈ ws, (32 : Nat) ∉ w) :
    capitalizeWords (joinSep [32] ws) = joinSep [32] (specTitleCase ws) ∧
      capitalizeTitle (joinSep [32] ws) = joinSep [32] (specTitleCase ws) ∧
      capitalizeWords (ofString "a trip to the lake") =
        ofString "A Trip to the Lake" ∧
      capitalizeTitle (ofString "a trip to the lake") =
        ofString "A Trip to the Lake" := by
  refine ⟨capitalizeWords_joinSep ws h1 h2, ?_, by decide, by decide⟩
  rw [capitalizeTitle_eq_capitalizeWords]
  exact capitalizeWords_joinSep ws h1 h2

/-- C6, witness: the title rule at the concrete spec example words. -/
theorem c6_title_case_witness :
    capitalizeWords (joinSep [32]
        [ofString "a", ofString "trip", ofString "to", ofString "the",
         ofString "lake"]) =
      joinSep [32] (specTitleCase
        [ofString "a", ofString "trip", ofString "to", ofString "the",
         ofString "lake"]) :=
  (c6_title_case
    [ofString "a", ofString "trip", ofString "to", ofString "the",
     ofString "lake"] (by decide) (by decide)).1

/-- C7, counterexample to the claim as stated: the location formatters do
not apply the title minor-word rule — on "house of" the claimed rule
capitalizes the final minor word ("House Of") while both `formatLocation`
and `capitalizeLocation` lowercase it ("House of"); their minor-word list
also drops `but`, `nor` and `from`. -/
theorem c7_location_counterexample :
    formatLocation (ofString "house of") = ofString "House of" ∧
      capitalizeLocation (ofString "house of") = ofString "House of" ∧
      specLocationCase (ofString "house of") = ofString "House Of" ∧
      formatLocation (ofString "house of") ≠
        specLocationCase (ofString "house of") ∧
      capitalizeLocation (ofString "house of") ≠
        specLocationCase (ofString "house of") := by decide

/-- C7, amended: per comma-delimited component, locations are capitalized
with the reduced minor-word list (`and, or, the, a, an, of, to, in, for,
on, by, at` — without `but`/`nor`/`from`), and a minor word escapes
lowercasing only as the component's first word — by value equality with
the first word in `formatLocation` (`locWordRuleA`), by index 0 in
`capitalizeLocation`, which additionally preserves all-caps words of up to
three characters (`locWordRuleB`); there is no last-word exemption. -/
theorem c7_location_case_amended (wss : List (List (List Nat)))
    (hne : wss ≠ []) (hw : ∀ ws ∈ wss, goodWords ws) :
    formatLocation (joinSep (ofString ", ") (wss.map (joinSep [32]))) =
        joinSep (ofString ", ")
          (wss.map (fun ws => joinSep [32] (locWordRuleA ws))) ∧
      capitalizeLocation (joinSep (ofString ", ") (wss.map (joinSep [32]))) =
        joinSep (ofString ", ")
          (wss.map (fun ws => joinSep [32] (locWordRuleB ws))) :=
  ⟨formatLocation_words wss hne hw, capitalizeLocation_words wss hne hw⟩

/-- C7, witness: the amended location rule at a concrete two-component
location. -/
theorem c7_location_case_witness :
    formatLocation (joinSep (ofString ", ")
        ([[ofString "house", ofString "of"],
          [ofString "the", ofString "lake", ofString "rd"]].map (joinSep [32]))) =
      joinSep (ofString ", ")
        ([[ofString "house", ofString "of"],
          [ofString "the", ofString "lake", ofString "rd"]].map
          (fun ws => joinSep [32] (locWordRuleA ws))) ∧
    capitalizeLocation (joinSep (ofString ", ")
        ([[ofString "house", ofString "of"],
          [ofString "the", ofString "lake", ofString "rd"]].map (joinSep [32]))) =
      joinSep (ofString ", ")
        ([[ofString "house", ofString "of"],
          [ofString "the", ofString "lake", ofString "rd"]].map
          (fun ws => joinSep [32] (locWordRuleB ws))) :=
  c7_location_case_amended
    [[ofString "house", ofString "of"],
     [ofString "the", ofString "lake", ofString "rd"]] (by decide) (by decide)

/-- The escaped value never contains a raw line feed. -/
theorem formatICSValue_no_LF (s : List Nat) :
    (10 : Nat) ∉ formatICSValue (some s) := by
  intro hc
  simp only [formatICSValue] at hc
  split at hc
  · simp at hc
  · rcases List.mem_flatMap.mp hc with ⟨x, hx, hcx⟩
    rcases List.mem_flatMap.mp hx with ⟨u, hu, hxu⟩
    by_cases h10 : u = 10
    · rw [if_pos h10] at hxu
      rcases List.mem_cons.mp hxu with h | h
      · subst h
        simp at hcx
      · have hx110 : x = 110 := by simpa using h
        subst hx110
        simp at hcx
    · rw [if_neg h10] at hxu
      have hxu2 : x = u := by simpa using hxu
      subst hxu2
      by_cases h44 : x = 44
      · rw [if_pos h44] at hcx
        simp at hcx
      · rw [if_neg h44] at hcx
        have hx10 : (10 : Nat) = x := by simpa using hcx
        exact h10 hx10.symm

/-- The two sequential replacements collapse to one escaping pass. -/
theorem escape_collapse :
    ∀ s : List Nat,
      (s.flatMap (fun c => if c = 10 then [92, 110] else [c])).flatMap
          (fun c => if c = 44 then [92, 44] else [c]) =
        s.flatMap (fun c =>
          if c = 10 then [92, 110] else if c = 44 then [92, 44] else [c])
  | [] => rfl
  | c :: rest => by
    have ih := escape_collapse rest
    simp only [List.flatMap_cons, List.flatMap_append, ih]
    by_cases h10 : c = 10
    · subst h10
      simp
    · by_cases h44 : c = 44
      · subst h44
        simp
      · simp [h10, h44]

/-- C8, counterexample to the claim as stated: a carriage return (a
control character) passes through `formatICSValue` raw — only line feeds
and commas are escaped. -/
theorem c8_escaping_counterexample :
    formatICSValue (some [97, 13, 98]) = [97, 13, 98] ∧
      (13 : Nat) ∈ formatICSValue (some [97, 13, 98]) ∧ (13 : Nat) < 32 := by
  decide

/-- C8, amended: line feeds become `\n` and commas become `\,` in a single
left-to-right pass (so no raw LF survives), while other control characters
such as CR pass through unchanged; the sentinel absence values (`undefined`,
empty string, "None", "Not specified") produce the empty value, and the
document builder drops the corresponding line entirely, leaving no blank
line in the emitted line list. -/
theorem c8_escaping_amended :
    (∀ s : List Nat, (10 : Nat) ∉ formatICSValue (some s)) ∧
      (∀ s : List Nat, s ≠ [] → s ≠ ofString "None" →
        s ≠ ofString "Not specified" →
        formatICSValue (some s) =
          s.flatMap (fun c =>
            if c = 10 then [92, 110] else if c = 44 then [92, 44] else [c])) ∧
      formatICSValue none = [] ∧
      formatICSValue (some []) = [] ∧
      formatICSValue (some (ofString "None")) = [] ∧
      formatICSValue (some (ofString "Not specified")) = [] ∧
      (∀ (ts : Nat) (e : EventData) (sd st : List Nat),
        ∀ l ∈ icsDocLines ts e sd st, l ≠ []) := by
  refine ⟨formatICSValue_no_LF, ?_, rfl, by decide, by decide, by decide, ?_⟩
  · intro s h1 h2 h3
    have hcond : ¬ (s = [] ∨ s = ofString "None" ∨ s = ofString "Not specified") := by
      tauto
    simp only [formatICSValue, if_neg hcond]
    exact escape_collapse s
  · intro ts e sd st l hl heq
    simp only [icsDocLines] at hl
    have hp := (List.mem_filter.mp hl).2
    subst heq
    simp at hp

/-- C8, witness: the amended escaping behaviour at a concrete value
containing a line feed and a comma, and a concrete emitted line. -/
theorem c8_escaping_witness :
    (10 : Nat) ∉ formatICSValue (some [97, 10, 44, 98]) ∧
      formatICSValue (some [97, 10, 44, 98]) =
        [97, 10, 44, 98].flatMap (fun c =>
          if c = 10 then [92, 110] else if c = 44 then [92, 44] else [c]) ∧
      (ofString "BEGIN:VCALENDAR" ≠ ([] : List Nat)) := by
  have h := c8_escaping_amended
  refine ⟨h.1 [97, 10, 44, 98],
    h.2.1 [97, 10, 44, 98] (by decide) (by decide) (by decide),
    h.2.2.2.2.2.2 0 {} (ofString "2024-03-10") (ofString "14:00")
      (ofString "BEGIN:VCALENDAR") ?_⟩
  decide

/-- C9: the event-update path always regenerates the ICS payload from the
(capitalized) event fields — whether or not the API supplied an `ics_file`
— so an externally supplied payload is surfaced only if it happens to equal
the freshly regenerated one; a corrupted upstream payload never reaches the
consumer, which instead receives the normalized fields and the regenerated
encoding. -/
theorem c9_regenerated_payload (ts : Nat) (apiIcs : Option (List Nat))
    (e : EventData) :
    handleEventUpdate ts apiIcs e =
        (normalizeEventFields e, generateICSFile ts (normalizeEventFields e)) ∧
      (∀ p : List Nat, p ≠ generateICSFile ts (normalizeEventFields e) →
        (handleEventUpdate ts (some p) e).2 ≠ p) := by
  have hmain : ∀ a : Option (List Nat),
      handleEventUpdate ts a e =
        (normalizeEventFields e, generateICSFile ts (normalizeEventFields e)) := by
    intro a
    simp [handleEventUpdate]
  refine ⟨hmain apiIcs, ?_⟩
  intro p hp hcontra
  have hsnd := congrArg Prod.snd (hmain (some p))
  rw [hcontra] at hsnd
  exact hp (by simpa using hsnd)

set_option maxRecDepth 100000 in
/-- C9, witness: a corrupted upstream payload is discarded on a concrete
event. -/
theorem c9_regenerated_witness :
    handleEventUpdate 0 (some [1, 2, 3]) {} =
        (normalizeEventFields {}, generateICSFile 0 (normalizeEventFields {})) ∧
      (handleEventUpdate 0 (some [1, 2, 3]) {}).2 ≠ [1, 2, 3] := by
  have h := c9_regenerated_payload 0 (some [1, 2, 3]) {}
  exact ⟨h.1, h.2 [1, 2, 3] (by decide)⟩

/-- C10: the encoding pipeline is total and well-formed — every character
`safeBtoa` emits, on any input whatsoever, is a base64 alphabet character
or `=`; `generateICSFile` always returns the encoding of a document, and
when a start field is absent (the only way the `try` block can throw) that
document is the hard-coded minimal fallback document. -/
theorem c10_totality (s : List Nat) (c : Nat) (hc : c ∈ safeBtoa s) :
    (c ∈ base64chars ∨ c = 61) ∧
      (∀ (ts : Nat) (e : EventData),
        generateICSFile ts e = safeBtoa (icsDocText ts e)) ∧
      (∀ (ts : Nat) (e : EventData),
        e.start_date = none ∨ e.start_time = none →
          icsDocText ts e = fallbackDoc) := by
  refine ⟨safeBtoa_alphabet s c hc, fun ts e => rfl, ?_⟩
  intro ts e h
  unfold icsDocText
  rcases h with h | h
  · rw [h]
  · rw [h]
    cases e.start_date <;> rfl

/-- C10, witness: the alphabet property and fallback substitution at
concrete inputs. -/
theorem c10_totality_witness :
    ((65 : Nat) ∈ base64chars ∨ (65 : Nat) = 61) ∧
      generateICSFile 0 {} = safeBtoa (icsDocText 0 {}) ∧
      icsDocText 0 {} = fallbackDoc := by
  have h := c10_totality [0] 65 (by decide)
  exact ⟨h.1, h.2.1 0 {}, h.2.2 0 {} (Or.inl rfl)⟩
